import Mathlib

/-!
A shallow embedding of a sparse-matrix library (COO / CSR / CSC storage,
their mutual conversions, COO arithmetic kernels, and a dense LU solver).
Floating-point values are modelled as rationals: every constant that the
code compares against (the zero tolerance `1e-12`, the underflow guard
`1e-100`) and every input appearing in the claims is an exact decimal, so
the tolerance logic is reproduced exactly.
Python parallel arrays are always consumed through `zip(data, row, col)`
in the source; the embedding reads them the same way via `List.zip`.
Python dicts are modelled as association lists in insertion order
(`dAccum` updates the first matching key in place, else appends, exactly
like `d[k] = d.get(k, 0.0) + v`), and `sorted(...)` is modelled by
`List.insertionSort`.
-/

/-- Module-level zero tolerance `ZERO_TOL = 1e-12` shared by COO.py, CSR.py,
CSC.py and the literal `1e-12` in linalg.py. -/
def ZERO_TOL : ℚ := 1 / 10 ^ 12

/-- Dense matrix: a list of rows, as `DenseMatrix = List[List[float]]`. -/
abbrev DenseMat := List (List ℚ)

/-- `D[i][j]`, reading out of range as `0` (validated code never reads out of
range). -/
def getEntry (D : DenseMat) (i j : ℕ) : ℚ := (D.getD i []).getD j 0

/-- A COO triplet `(value, row, col)` in the order produced by
`zip(data, row, col)`. -/
abbrev Trip := ℚ × ℕ × ℕ

/-- `COOMatrix`: parallel arrays `data`, `row`, `col` plus `shape`. -/
structure COOMat where
  data : List ℚ
  row : List ℕ
  col : List ℕ
  shape : ℕ × ℕ

/-- `CSRMatrix`: `data`, column `indices`, row pointer `indptr`, `shape`. -/
structure CSRMat where
  data : List ℚ
  indices : List ℕ
  indptr : List ℕ
  shape : ℕ × ℕ

/-- `CSCMatrix`: `data`, row `indices`, column pointer `indptr`, `shape`. -/
structure CSCMat where
  data : List ℚ
  indices : List ℕ
  indptr : List ℕ
  shape : ℕ × ℕ

/-- The eager validation performed by `COOMatrix.__init__`: parallel arrays of
equal length and every index pair inside the declared shape (which also rules
out any entry when a dimension is zero). -/
def COOMat.Valid (M : COOMat) : Prop :=
  M.data.length = M.row.length ∧ M.data.length = M.col.length ∧
    ∀ p ∈ M.row.zip M.col, p.1 < M.shape.1 ∧ p.2 < M.shape.2

/-- The eager validation performed by `CSRMatrix.__init__`: `indptr` of length
`rows + 1`, terminal pointer equal to both array lengths, in-bounds column
indices, and a non-decreasing pointer array.  Nothing else (in particular no
sortedness and no per-segment distinctness) is checked. -/
def CSRMat.Valid (M : CSRMat) : Prop :=
  M.indptr.length = M.shape.1 + 1 ∧
    M.indptr.getLast? = some M.data.length ∧
    M.indptr.getLast? = some M.indices.length ∧
    (∀ c ∈ M.indices, c < M.shape.2) ∧
    ∀ i < M.indptr.length - 1, M.indptr.getD i 0 ≤ M.indptr.getD (i + 1) 0

/-- The eager validation performed by `CSCMatrix.__init__` (mirror image of the
CSR one: `indptr` of length `cols + 1`, row indices bounded by `rows`). -/
def CSCMat.Valid (M : CSCMat) : Prop :=
  M.indptr.length = M.shape.2 + 1 ∧
    M.indptr.getLast? = some M.data.length ∧
    M.indptr.getLast? = some M.indices.length ∧
    (∀ r ∈ M.indices, r < M.shape.1) ∧
    ∀ i < M.indptr.length - 1, M.indptr.getD i 0 ≤ M.indptr.getD (i + 1) 0

/-- The triplet stream `zip(self.data, self.row, self.col)`. -/
def COOMat.trips (M : COOMat) : List Trip := M.data.zip (M.row.zip M.col)

/-- Rebuild the three parallel arrays from a triplet list (the way `_add_impl`
and `_matmul_impl` rebuild `data`, `row`, `col` from emitted items). -/
def cooOfTrips (l : List Trip) (shape : ℕ × ℕ) : COOMat :=
  ⟨l.map (·.1), l.map (·.2.1), l.map (·.2.2), shape⟩

/-- Python-dict accumulation `d[k] = d.get(k, 0.0) + v`: update the first
matching key in place, otherwise append the new key. -/
def dAccum {κ : Type} [DecidableEq κ] : List (κ × ℚ) → κ → ℚ → List (κ × ℚ)
  | [], k, v => [(k, v)]
  | (k', v') :: t, k, v =>
    if k' = k then (k', v' + v) :: t else (k', v') :: dAccum t k v

/-- Dict read `d[k]` (first match; `0` when absent, matching `d.get(k, 0.0)`).
-/
def dGetD {κ : Type} [DecidableEq κ] : List (κ × ℚ) → κ → ℚ
  | [], _ => 0
  | (k', v') :: t, k => if k' = k then v' else dGetD t k

/-- Fold a stream of keyed contributions into a dict, in stream order. -/
def dOfList {κ : Type} [DecidableEq κ] (l : List (κ × ℚ)) : List (κ × ℚ) :=
  l.foldl (fun d p => dAccum d p.1 p.2) []

/-- Accumulated value of cell `(r, c)` over a triplet stream: the repeated
`dense[r][c] += value` of `COOMatrix.to_dense`. -/
def tripsSum (l : List Trip) (r c : ℕ) : ℚ :=
  l.foldl (fun a t => if t.2 = (r, c) then a + t.1 else a) 0

/-- An `m × n` grid of cells, row-major. -/
def gridOf (m n : ℕ) (f : ℕ → ℕ → ℚ) : DenseMat :=
  (List.range m).map fun r => (List.range n).map fun c => f r c

/-- `COOMatrix.to_dense`: scatter-accumulate (duplicate indices are summed). -/
def COOMat.toDense (M : COOMat) : DenseMat :=
  gridOf M.shape.1 M.shape.2 fun r c => tripsSum M.trips r c

/-- `COOMatrix.eliminate_zeros(tol)`: keep the triplets with `abs(v) > tol`. -/
def COOMat.eliminateZeros (M : COOMat) (tol : ℚ) : COOMat :=
  cooOfTrips (M.trips.filter fun t => tol < |t.1|) M.shape

/-- Python tuple order on dict items keyed by `(row, col)` (keys are distinct,
so `sorted(result.items())` is decided by the key alone). -/
def keyLe (p q : (ℕ × ℕ) × ℚ) : Prop :=
  p.1.1 < q.1.1 ∨ (p.1.1 = q.1.1 ∧ p.1.2 ≤ q.1.2)

instance : DecidableRel keyLe := fun p q => by
  unfold keyLe
  infer_instance

/-- `sorted(result.items())`. -/
def sortItems (l : List ((ℕ × ℕ) × ℚ)) : List ((ℕ × ℕ) × ℚ) :=
  List.insertionSort keyLe l

/-- Turn sorted dict items back into triplets, as `_add_impl` rebuilds `data`,
`row`, `col` from `items`. -/
def itemsToTrips (l : List ((ℕ × ℕ) × ℚ)) : List Trip :=
  l.map fun p => (p.2, p.1)

/-- `COOMatrix._add_impl`: fold both operands' triplet streams into an
accumulator keyed by `(row, col)`, emit the items in ascending key order and
eliminate numerical noise.  `otherTrips` is the second operand's triplet
stream (the raw triplets when it is a COO matrix, its non-zero dense cells
otherwise). -/
def cooAddImpl (A : COOMat) (otherTrips : List Trip) : COOMat :=
  let d := dOfList ((A.trips ++ otherTrips).map fun t => (t.2, t.1))
  if d.isEmpty then cooOfTrips [] A.shape
  else (cooOfTrips (itemsToTrips (sortItems d)) A.shape).eliminateZeros ZERO_TOL

/-- Non-zero cells of a dense matrix in row-major order: the triplet generator
used by `COOMatrix._add_impl` for a non-COO operand (it ranges over
`self.shape`). -/
def denseTrips (D : DenseMat) (shape : ℕ × ℕ) : List Trip :=
  (List.range shape.1).flatMap fun i =>
    (List.range shape.2).filterMap fun j =>
      if getEntry D i j ≠ 0 then some (getEntry D i j, i, j) else none

/-- `COOMatrix._mul_impl`: scale every value; eliminate noise only for a
non-zero scalar. -/
def COOMat.mulImpl (M : COOMat) (s : ℚ) : COOMat :=
  let res : COOMat := ⟨M.data.map (· * s), M.row, M.col, M.shape⟩
  if s ≠ 0 then res.eliminateZeros ZERO_TOL else res

/-- `COOMatrix.transpose`: swap the index arrays and the shape. -/
def COOMat.transpose (M : COOMat) : COOMat :=
  ⟨M.data, M.col, M.row, (M.shape.2, M.shape.1)⟩

/-- `right_by_row.setdefault(r, []).append((c, v))`: the right operand's
triplets grouped by row, each bucket in stream order. -/
def rowBucket (B : COOMat) (r : ℕ) : List (ℕ × ℚ) :=
  B.trips.filterMap fun t => if t.2.1 = r then some (t.2.2, t.1) else none

/-- `COOMatrix._matmul_impl` (hash join): for every left triplet look up the
right operand's bucket for its column and accumulate the products; emit in
ascending key order and eliminate noise. -/
def cooMatmulImpl (A B : COOMat) : COOMat :=
  let d := A.trips.foldl
    (fun acc a =>
      if (rowBucket B a.2.2).isEmpty then acc
      else (rowBucket B a.2.2).foldl
        (fun acc2 cv => dAccum acc2 (a.2.1, cv.1) (a.1 * cv.2)) acc)
    []
  if d.isEmpty then cooOfTrips [] (A.shape.1, B.shape.2)
  else
    (cooOfTrips (itemsToTrips (sortItems d))
      (A.shape.1, B.shape.2)).eliminateZeros ZERO_TOL

/-- `COOMatrix.from_dense`: row-major scan keeping entries that differ from
zero under exact comparison. -/
def cooFromDense (D : DenseMat) : COOMat :=
  match D with
  | [] => ⟨[], [], [], (0, 0)⟩
  | _ =>
    cooOfTrips
      ((List.range D.length).flatMap fun i =>
        (List.range (D.headD []).length).filterMap fun j =>
          if getEntry D i j ≠ 0 then some (getEntry D i j, i, j) else none)
      (D.length, (D.headD []).length)

/-- The per-bucket dict of `_to_csr` / `_to_csc`: triplets are given in
`(primary, secondary, value)` orientation and the bucket for primary index `p`
receives, in stream order, the contribution of every triplet whose primary
index is `p`. -/
def segDict (l : List (ℕ × ℕ × ℚ)) (p : ℕ) : List (ℕ × ℚ) :=
  dOfList ((l.filter fun t => t.1 = p).map fun t => (t.2.1, t.2.2))

/-- One emitted segment of `_to_csr` / `_to_csc`: the bucket's keys in
ascending order (`sorted(d.keys())`), each with its accumulated value, kept
only when `abs(val) > ZERO_TOL`. -/
def segOut (l : List (ℕ × ℕ × ℚ)) (p : ℕ) : List (ℕ × ℚ) :=
  (List.insertionSort (· ≤ ·) ((segDict l p).map (·.1))).filterMap fun k =>
    if ZERO_TOL < |dGetD (segDict l p) k| then some (k, dGetD (segDict l p) k)
    else none

/-- All segments, one per primary index. -/
def buildSegs (l : List (ℕ × ℕ × ℚ)) (nprim : ℕ) : List (List (ℕ × ℚ)) :=
  (List.range nprim).map (segOut l)

/-- Concatenated `data` array of a segment list. -/
def segsData (segs : List (List (ℕ × ℚ))) : List ℚ :=
  (segs.map fun s => s.map (·.2)).flatten

/-- Concatenated `indices` array of a segment list. -/
def segsIndices (segs : List (List (ℕ × ℚ))) : List ℕ :=
  (segs.map fun s => s.map (·.1)).flatten

/-- Pointer array of a segment list: `[0]` followed by the running length of
`data` after each segment. -/
def segsIndptr (segs : List (List (ℕ × ℚ))) : List ℕ :=
  (List.range (segs.length + 1)).map fun j => ((segs.take j).map List.length).sum

/-- `COOMatrix._to_csr`: bucket by row, sum duplicates, drop near-zero sums,
sort column indices inside each row. -/
def cooToCsr (M : COOMat) : CSRMat :=
  let segs := buildSegs (M.trips.map fun t => (t.2.1, t.2.2, t.1)) M.shape.1
  ⟨segsData segs, segsIndices segs, segsIndptr segs, M.shape⟩

/-- `COOMatrix._to_csc`: bucket by column, sum duplicates, drop near-zero
sums, sort row indices inside each column. -/
def cooToCsc (M : COOMat) : CSCMat :=
  let segs := buildSegs (M.trips.map fun t => (t.2.2, t.2.1, t.1)) M.shape.2
  ⟨segsData segs, segsIndices segs, segsIndptr segs, M.shape⟩

/-- The `i`-th stored segment of a compressed matrix: pairs
`(indices[idx], data[idx])` for `idx in range(indptr[i], indptr[i+1])`. -/
def CSRMat.seg (M : CSRMat) (i : ℕ) : List (ℕ × ℚ) :=
  (List.range' (M.indptr.getD i 0)
      (M.indptr.getD (i + 1) 0 - M.indptr.getD i 0)).map
    fun idx => (M.indices.getD idx 0, M.data.getD idx 0)

/-- The `j`-th stored segment of a CSC matrix. -/
def CSCMat.seg (M : CSCMat) (j : ℕ) : List (ℕ × ℚ) :=
  (List.range' (M.indptr.getD j 0)
      (M.indptr.getD (j + 1) 0 - M.indptr.getD j 0)).map
    fun idx => (M.indices.getD idx 0, M.data.getD idx 0)

/-- `CSRMatrix.to_dense`: scatter each row segment into a zeroed grid by
assignment (`dense[i][col] = data[idx]`), so a duplicate column index inside a
segment is overwritten, not summed. -/
def CSRMat.toDense (M : CSRMat) : DenseMat :=
  gridOf M.shape.1 M.shape.2 fun i c =>
    (M.seg i).foldl (fun acc p => if p.1 = c then p.2 else acc) 0

/-- `CSCMatrix.to_dense`: scatter each column segment by assignment. -/
def CSCMat.toDense (M : CSCMat) : DenseMat :=
  gridOf M.shape.1 M.shape.2 fun r j =>
    (M.seg j).foldl (fun acc p => if p.1 = r then p.2 else acc) 0

/-- `CSRMatrix._to_coo`: one triplet per stored entry, rows in order. -/
def CSRMat.toCoo (M : CSRMat) : COOMat :=
  cooOfTrips
    ((List.range M.shape.1).flatMap fun i => (M.seg i).map fun p => (p.2, i, p.1))
    M.shape

/-- `CSCMatrix._to_coo`: one triplet per stored entry, columns in order. -/
def CSCMat.toCoo (M : CSCMat) : COOMat :=
  cooOfTrips
    ((List.range M.shape.2).flatMap fun j => (M.seg j).map fun p => (p.2, p.1, j))
    M.shape

/-- `CSRMatrix._mul_impl`: explicit empty short-circuit for a zero scalar,
plain rescaling (no cleanup) otherwise. -/
def CSRMat.mulImpl (M : CSRMat) (s : ℚ) : CSRMat :=
  if s = 0 then ⟨[], [], List.replicate (M.shape.1 + 1) 0, M.shape⟩
  else ⟨M.data.map (· * s), M.indices, M.indptr, M.shape⟩

/-- `CSCMatrix._mul_impl`: mirror of the CSR one (`[0] * (cols + 1)`). -/
def CSCMat.mulImpl (M : CSCMat) (s : ℚ) : CSCMat :=
  if s = 0 then ⟨[], [], List.replicate (M.shape.2 + 1) 0, M.shape⟩
  else ⟨M.data.map (· * s), M.indices, M.indptr, M.shape⟩

/-- `CSRMatrix.from_dense`: row-major scan with the tolerance-based zero test
`abs(val) > ZERO_TOL`. -/
def csrFromDense (D : DenseMat) : CSRMat :=
  match D with
  | [] => ⟨[], [], [0], (0, 0)⟩
  | _ =>
    let segs := (List.range D.length).map fun i =>
      (List.range (D.headD []).length).filterMap fun j =>
        if ZERO_TOL < |getEntry D i j| then some (j, getEntry D i j) else none
    ⟨segsData segs, segsIndices segs, segsIndptr segs,
      (D.length, (D.headD []).length)⟩

/-- `CSCMatrix.from_dense`: column-major scan with the tolerance-based zero
test. -/
def cscFromDense (D : DenseMat) : CSCMat :=
  match D with
  | [] => ⟨[], [], [0], (0, 0)⟩
  | _ =>
    let segs := (List.range (D.headD []).length).map fun j =>
      (List.range D.length).filterMap fun i =>
        if ZERO_TOL < |getEntry D i j| then some (i, getEntry D i j) else none
    ⟨segsData segs, segsIndices segs, segsIndptr segs,
      (D.length, (D.headD []).length)⟩

/-- The dynamic type of a matrix flowing through the abstract `Matrix`
interface. -/
inductive SpMat where
  | coo (M : COOMat)
  | csr (M : CSRMat)
  | csc (M : CSCMat)

def SpMat.shape : SpMat → ℕ × ℕ
  | .coo M => M.shape
  | .csr M => M.shape
  | .csc M => M.shape

def SpMat.toDense : SpMat → DenseMat
  | .coo M => M.toDense
  | .csr M => M.toDense
  | .csc M => M.toDense

/-- The operand coercion used by the CSR/CSC kernels:
`other._to_coo() if hasattr(other, '_to_coo') else
COOMatrix.from_dense(other.to_dense())` (note that `COOMatrix` itself has no
`_to_coo`, so a COO operand is densified and rebuilt). -/
def cooOf : SpMat → COOMat
  | .coo M => cooFromDense M.toDense
  | .csr M => M.toCoo
  | .csc M => M.toCoo

/-- `Matrix.__add__`: the shape check at the contract boundary (`none` models
the raised `ValueError`) followed by the format-specific `_add_impl`.  The COO
kernel consumes a COO operand's triplets directly and the non-zero dense cells
of any other operand (its own shape recheck compares the original operands, so
it is subsumed by the boundary check); the CSR/CSC kernels convert both
operands to COO, delegate, and convert the result back to their own layout —
but the COO kernel's internal shape recheck then runs against the *converted*
operand: `_to_coo` preserves a compressed operand's shape, while a COO operand
is densified and rebuilt by `from_dense`, which collapses shape `(0, k)` to
`(0, 0)`, so the recheck can raise `ValueError` (modelled as `none`) even
though the original shapes matched. -/
def spAdd (A B : SpMat) : Option SpMat :=
  if A.shape ≠ B.shape then none
  else
    match A with
    | .coo M =>
      some (.coo (cooAddImpl M (match B with
        | .coo N => N.trips
        | _ => denseTrips B.toDense M.shape)))
    | .csr M =>
      if M.toCoo.shape ≠ (cooOf B).shape then none
      else some (.csr (cooToCsr (cooAddImpl M.toCoo (cooOf B).trips)))
    | .csc M =>
      if M.toCoo.shape ≠ (cooOf B).shape then none
      else some (.csc (cooToCsc (cooAddImpl M.toCoo (cooOf B).trips)))

/-- `Matrix.__mul__` (scalar multiplication), dispatching to `_mul_impl`. -/
def spMul (A : SpMat) (s : ℚ) : SpMat :=
  match A with
  | .coo M => .coo (M.mulImpl s)
  | .csr M => .csr (M.mulImpl s)
  | .csc M => .csc (M.mulImpl s)

/-- `transpose`: COO swaps its index arrays; CSR/CSC convert to COO, transpose
there and convert to the opposite compressed layout. -/
def spTranspose : SpMat → SpMat
  | .coo M => .coo M.transpose
  | .csr M => .csc (cooToCsc M.toCoo.transpose)
  | .csc M => .csr (cooToCsr M.toCoo.transpose)

/-- `Matrix.__matmul__`: the compatibility check at the contract boundary
followed by `_matmul_impl`.  The CSR/CSC kernels convert both operands to COO
and return the COO kernel's result as is. -/
def spMatmul (A B : SpMat) : Option SpMat :=
  if A.shape.2 ≠ B.shape.1 then none
  else some (match A with
    | .coo M =>
      .coo (cooMatmulImpl M (match B with
        | .coo N => N
        | _ => cooFromDense B.toDense))
    | .csr M => .coo (cooMatmulImpl M.toCoo (cooOf B))
    | .csc M => .coo (cooMatmulImpl M.toCoo (cooOf B)))

/-- `sum_val` accumulators of the LU loops: a sum over `range i`. -/
def sumK (i : ℕ) (f : ℕ → ℚ) : ℚ := ((List.range i).map f).sum

/-- Step `i` of `lu_decomposition`, first half: fill row `i` of `U` for
columns `i ≤ j < n` with `dense_A[i][j] - sum(L[i][k] * U[k][j] for k < i)`.
-/
def uRowUpdate (dA : ℕ → ℕ → ℚ) (n i : ℕ) (L U : ℕ → ℕ → ℚ) : ℕ → ℕ → ℚ :=
  fun r c =>
    if r = i ∧ i ≤ c ∧ c < n then dA i c - sumK i fun k => L i k * U k c
    else U r c

/-- Step `i` of `lu_decomposition`, second half: fill column `i` of `L` for
rows `i ≤ j < n`, with `1` on the diagonal and
`(dense_A[j][i] - sum(L[j][k] * U[k][i] for k < i)) / U[i][i]` below it. -/
def lColUpdate (dA : ℕ → ℕ → ℚ) (n i : ℕ) (L U : ℕ → ℕ → ℚ) : ℕ → ℕ → ℚ :=
  fun r c =>
    if c = i ∧ i ≤ r ∧ r < n then
      if r = i then 1 else (dA r i - sumK i fun k => L r k * U k i) / U i i
    else L r c

/-- One full pivot step: compute row `i` of `U`, then signal absence when the
pivot `U[i][i]` is tiny and a strictly lower row `j > i` exists (the source
performs the check just before each division `L[j][i] = ... / U[i][i]`, which
only happens for `j > i`), else fill column `i` of `L`. -/
def luStep (dA : ℕ → ℕ → ℚ) (n : ℕ)
    (st : Option ((ℕ → ℕ → ℚ) × (ℕ → ℕ → ℚ))) (i : ℕ) :
    Option ((ℕ → ℕ → ℚ) × (ℕ → ℕ → ℚ)) :=
  st.bind fun s =>
    let U' := uRowUpdate dA n i s.1 s.2
    if i + 1 < n ∧ |U' i i| < ZERO_TOL then none
    else some (lColUpdate dA n i s.1 U', U')

/-- The factorization loop over pivots `i in range(k)` starting from zeroed
`L` and `U`. -/
def luLoop (dA : ℕ → ℕ → ℚ) (n k : ℕ) : Option ((ℕ → ℕ → ℚ) × (ℕ → ℕ → ℚ)) :=
  (List.range k).foldl (luStep dA n) (some (fun _ _ => 0, fun _ _ => 0))

/-- The same recurrence with the pivot check removed (total): used to name the
pivots `U[i][i]` that the factorization produces while it is still running. -/
def luRun (dA : ℕ → ℕ → ℚ) (n : ℕ) : ℕ → ((ℕ → ℕ → ℚ) × (ℕ → ℕ → ℚ))
  | 0 => (fun _ _ => 0, fun _ _ => 0)
  | k + 1 =>
    let s := luRun dA n k
    let U' := uRowUpdate dA n k s.1 s.2
    (lColUpdate dA n k s.1 U', U')

/-- Materialize an `n × n` function-backed matrix as a dense list grid. -/
def matOf (f : ℕ → ℕ → ℚ) (n : ℕ) : DenseMat := gridOf n n f

/-- `lu_decomposition`: `None` for a non-square shape, else run the dense
factorization on `A.to_dense()` and convert `L` and `U` back to CSC through
the tolerance-filtering dense factory. -/
def lu_decomposition (A : CSCMat) : Option (CSCMat × CSCMat) :=
  if A.shape.1 ≠ A.shape.2 then none
  else
    (luLoop (getEntry A.toDense) A.shape.1 A.shape.1).map fun st =>
      (cscFromDense (matOf st.1 A.shape.1), cscFromDense (matOf st.2 A.shape.1))

/-- Forward substitution `Ly = b` of `solve_SLAE_lu`: `y` after `i` steps,
each new entry `b[i] - sum(L_dense[i][j] * y[j] for j < i)` (no division, the
unit diagonal of `L` is exploited). -/
def fwdList (Ld : ℕ → ℕ → ℚ) (b : List ℚ) : ℕ → List ℚ
  | 0 => []
  | i + 1 =>
    let ys := fwdList Ld b i
    ys ++ [b.getD i 0 - ((List.range i).map fun j => Ld i j * ys.getD j 0).sum]

/-- Backward substitution `Ux = y` of `solve_SLAE_lu`, processed from
`i = n - 1` down to `0` over `x` initialized to zeros; each step signals
absence when the densified diagonal entry `U_dense[i][i]` is tiny. -/
def bwdRun (Ud : ℕ → ℕ → ℚ) (y : ℕ → ℚ) (n : ℕ) : ℕ → Option (ℕ → ℚ)
  | 0 => some fun _ => 0
  | k + 1 =>
    (bwdRun Ud y n k).bind fun x =>
      if |Ud (n - 1 - k) (n - 1 - k)| < ZERO_TOL then none
      else some fun m =>
        if m = n - 1 - k then
          (y (n - 1 - k) -
              ((List.range' (n - 1 - k + 1) (n - (n - 1 - k + 1))).map
                fun j => Ud (n - 1 - k) j * x j).sum) /
            Ud (n - 1 - k) (n - 1 - k)
        else x m

/-- `solve_SLAE_lu`: absence propagates from the factorization; both triangular
solves run on the densified factors with `n = len(b)`.  The factors are read
through the total `getEntry` (out-of-range cells as `0`), whereas the source
indexes the `n_A × n_A` dense factor lists directly and raises `IndexError`
once `len(b)` exceeds the matrix dimension; theorems about this definition
therefore carry the hypothesis `b.length ≤ A.shape.1`, the domain on which it
models the source. -/
def solve_SLAE_lu (A : CSCMat) (b : List ℚ) : Option (List ℚ) :=
  (lu_decomposition A).bind fun LU =>
    let y := fwdList (getEntry LU.1.toDense) b b.length
    (bwdRun (getEntry LU.2.toDense) (fun i => y.getD i 0) b.length b.length).map
      fun x => (List.range b.length).map x

/-- Underflow guard `1e-100` of `find_det_with_lu`. -/
def UNDERFLOW_TOL : ℚ := 1 / 10 ^ 100

/-- The determinant loop: multiply the diagonal of the densified `U`, breaking
early once the running product's magnitude drops below `1e-100`. -/
def detGo (Ud : ℕ → ℕ → ℚ) : ℕ → ℕ → ℚ → ℚ
  | 0, _, det => det
  | k + 1, i, det =>
    if |det * Ud i i| < UNDERFLOW_TOL then det * Ud i i
    else detGo Ud k (i + 1) (det * Ud i i)

/-- `find_det_with_lu`: absence propagates from the factorization, else the
product of the densified `U`'s diagonal. -/
def find_det_with_lu (A : CSCMat) : Option ℚ :=
  (lu_decomposition A).map fun LU =>
    detGo (getEntry LU.2.toDense) LU.2.shape.1 0 1

/-! ### Generic association-list and grid lemmas -/

/-- Keys of an association list. -/
def dKeys {κ : Type} (d : List (κ × ℚ)) : List κ := d.map (·.1)

/-- Total contribution of key `k` in a stream of keyed values. -/
def keySum {κ : Type} [DecidableEq κ] (l : List (κ × ℚ)) (k : κ) : ℚ :=
  ((l.filter fun p => p.1 = k).map (·.2)).sum

/-- The keyed-pair view of a triplet stream. -/
def tripPairs (l : List Trip) : List ((ℕ × ℕ) × ℚ) := l.map fun t => (t.2, t.1)

theorem keySum_nil {κ : Type} [DecidableEq κ] (k : κ) : keySum [] k = 0 := rfl

theorem keySum_cons {κ : Type} [DecidableEq κ] (p : κ × ℚ) (l : List (κ × ℚ))
    (k : κ) : keySum (p :: l) k = (if p.1 = k then p.2 else 0) + keySum l k := by
  by_cases h : p.1 = k <;> simp [keySum, List.filter_cons, h]

theorem keySum_append {κ : Type} [DecidableEq κ] (l₁ l₂ : List (κ × ℚ)) (k : κ) :
    keySum (l₁ ++ l₂) k = keySum l₁ k + keySum l₂ k := by
  simp [keySum, List.filter_append]

theorem keySum_perm {κ : Type} [DecidableEq κ] {l₁ l₂ : List (κ × ℚ)}
    (h : l₁.Perm l₂) (k : κ) : keySum l₁ k = keySum l₂ k :=
  ((h.filter _).map _).sum_eq

theorem keySum_eq_zero_of_not_mem {κ : Type} [DecidableEq κ] {l : List (κ × ℚ)}
    {k : κ} (h : k ∉ l.map (·.1)) : keySum l k = 0 := by
  induction l with
  | nil => rfl
  | cons p l ih =>
    simp only [List.map_cons, List.mem_cons] at h
    push_neg at h
    rw [keySum_cons, if_neg (fun hp => h.1 hp.symm), ih h.2, add_zero]

theorem keySum_of_nodup_mem {κ : Type} [DecidableEq κ] {l : List (κ × ℚ)}
    {k : κ} {v : ℚ} (hnd : (l.map (·.1)).Nodup) (hm : (k, v) ∈ l) :
    keySum l k = v := by
  induction l with
  | nil => simp at hm
  | cons p l ih =>
    simp only [List.map_cons, List.nodup_cons] at hnd
    rcases List.mem_cons.1 hm with h | h
    · subst h
      rw [keySum_cons, if_pos rfl,
        keySum_eq_zero_of_not_mem (by simpa using hnd.1), add_zero]
    · have hk : k ∈ l.map (·.1) := List.mem_map.2 ⟨(k, v), h, rfl⟩
      have hne : p.1 ≠ k := fun he => hnd.1 (he ▸ hk)
      rw [keySum_cons, if_neg hne, ih hnd.2 h, zero_add]

theorem dGetD_eq_keySum_of_nodup {κ : Type} [DecidableEq κ] {l : List (κ × ℚ)}
    (hnd : (l.map (·.1)).Nodup) (k : κ) : dGetD l k = keySum l k := by
  induction l with
  | nil => rfl
  | cons p l ih =>
    simp only [List.map_cons, List.nodup_cons] at hnd
    rcases p with ⟨k', v'⟩
    by_cases h : k' = k
    · subst h
      rw [dGetD, if_pos rfl, keySum_cons, if_pos rfl,
        keySum_eq_zero_of_not_mem (by simpa using hnd.1), add_zero]
    · rw [dGetD, if_neg h, keySum_cons, if_neg h, ih hnd.2, zero_add]

theorem mem_pair_of_nodup {κ : Type} [DecidableEq κ] {l : List (κ × ℚ)}
    (hnd : (l.map (·.1)).Nodup) {k : κ} (hk : k ∈ l.map (·.1)) :
    (k, keySum l k) ∈ l := by
  rcases List.mem_map.1 hk with ⟨p, hp, hpk⟩
  have : keySum l k = p.2 := keySum_of_nodup_mem hnd (by rwa [← hpk, Prod.mk.eta])
  rw [this, ← hpk, Prod.mk.eta]
  exact hp

theorem dGetD_dAccum_self {κ : Type} [DecidableEq κ] (d : List (κ × ℚ)) (k : κ)
    (v : ℚ) : dGetD (dAccum d k v) k = dGetD d k + v := by
  induction d with
  | nil => simp [dAccum, dGetD]
  | cons p d ih =>
    rcases p with ⟨k', v'⟩
    by_cases h : k' = k
    · simp [dAccum, dGetD, h]
    · simp [dAccum, dGetD, h, ih]

theorem dGetD_dAccum_ne {κ : Type} [DecidableEq κ] (d : List (κ × ℚ)) {a k : κ}
    (h : a ≠ k) (v : ℚ) : dGetD (dAccum d k v) a = dGetD d a := by
  have hka : ¬k = a := fun he => h he.symm
  induction d with
  | nil => simp only [dAccum, dGetD, if_neg hka]
  | cons p d ih =>
    rcases p with ⟨k', v'⟩
    by_cases hk : k' = k
    · subst hk
      simp only [dAccum, if_pos rfl, dGetD, if_neg hka]
    · simp only [dAccum, if_neg hk, dGetD, ih]

theorem dKeys_cons {κ : Type} (p : κ × ℚ) (d : List (κ × ℚ)) :
    dKeys (p :: d) = p.1 :: dKeys d := rfl

theorem dKeys_dAccum {κ : Type} [DecidableEq κ] (d : List (κ × ℚ)) (k : κ)
    (v : ℚ) :
    dKeys (dAccum d k v) = if k ∈ dKeys d then dKeys d else dKeys d ++ [k] := by
  induction d with
  | nil => simp [dAccum, dKeys]
  | cons p d ih =>
    rcases p with ⟨k', v'⟩
    by_cases h : k' = k
    · subst h
      simp [dAccum, dKeys]
    · have hstep : dAccum ((k', v') :: d) k v = (k', v') :: dAccum d k v := by
        simp [dAccum, h]
      have hmem : k ∈ dKeys ((k', v') :: d) ↔ k ∈ dKeys d := by
        rw [dKeys_cons, List.mem_cons]
        exact or_iff_right (fun he => h he.symm)
      by_cases hm : k ∈ dKeys d
      · rw [hstep, dKeys_cons, if_pos (hmem.2 hm), ih, if_pos hm, dKeys_cons]
      · rw [hstep, dKeys_cons, if_neg (fun hh => hm (hmem.1 hh)), ih, if_neg hm,
          dKeys_cons, List.cons_append]

theorem mem_dKeys_dAccum {κ : Type} [DecidableEq κ] (d : List (κ × ℚ))
    (a k : κ) (v : ℚ) :
    a ∈ dKeys (dAccum d k v) ↔ a ∈ dKeys d ∨ a = k := by
  rw [dKeys_dAccum]
  by_cases hm : k ∈ dKeys d
  · rw [if_pos hm]
    constructor
    · exact .inl
    · rintro (h | rfl)
      · exact h
      · exact hm
  · rw [if_neg hm]
    simp [List.mem_append]

theorem nodup_dKeys_dAccum {κ : Type} [DecidableEq κ] {d : List (κ × ℚ)}
    (hnd : (dKeys d).Nodup) (k : κ) (v : ℚ) : (dKeys (dAccum d k v)).Nodup := by
  rw [dKeys_dAccum]
  by_cases hm : k ∈ dKeys d
  · rwa [if_pos hm]
  · rw [if_neg hm, List.nodup_append]
    exact ⟨hnd, List.nodup_singleton k,
      fun a ha hak => hm ((List.mem_singleton.1 hak) ▸ ha)⟩

theorem dGetD_dFold {κ : Type} [DecidableEq κ] (l : List (κ × ℚ)) :
    ∀ (d : List (κ × ℚ)) (k : κ),
      dGetD (l.foldl (fun d p => dAccum d p.1 p.2) d) k = dGetD d k + keySum l k := by
  induction l with
  | nil => simp [keySum_nil]
  | cons p l ih =>
    intro d k
    rw [List.foldl_cons, ih, keySum_cons]
    by_cases h : p.1 = k
    · rw [if_pos h, h, dGetD_dAccum_self]
      ring
    · rw [if_neg h, dGetD_dAccum_ne d (fun he => h he.symm), zero_add]

theorem dGetD_dOfList {κ : Type} [DecidableEq κ] (l : List (κ × ℚ)) (k : κ) :
    dGetD (dOfList l) k = keySum l k := by
  rw [dOfList, dGetD_dFold]
  show 0 + keySum l k = keySum l k
  rw [zero_add]

theorem mem_dKeys_dFold {κ : Type} [DecidableEq κ] (l : List (κ × ℚ)) :
    ∀ (d : List (κ × ℚ)) (k : κ),
      k ∈ dKeys (l.foldl (fun d p => dAccum d p.1 p.2) d) ↔
        k ∈ dKeys d ∨ k ∈ l.map (·.1) := by
  induction l with
  | nil =>
    intro d k
    simp
  | cons p l ih =>
    intro d k
    rw [List.foldl_cons, ih, mem_dKeys_dAccum, List.map_cons, List.mem_cons]
    tauto

theorem nodup_dKeys_dFold {κ : Type} [DecidableEq κ] (l : List (κ × ℚ)) :
    ∀ d : List (κ × ℚ), (dKeys d).Nodup →
      (dKeys (l.foldl (fun d p => dAccum d p.1 p.2) d)).Nodup := by
  induction l with
  | nil => exact fun d h => h
  | cons p l ih => exact fun d h => ih _ (nodup_dKeys_dAccum h _ _)

theorem nodup_dKeys_dOfList {κ : Type} [DecidableEq κ] (l : List (κ × ℚ)) :
    (dKeys (dOfList l)).Nodup :=
  nodup_dKeys_dFold l [] List.nodup_nil

theorem mem_dKeys_dOfList {κ : Type} [DecidableEq κ] (l : List (κ × ℚ)) (k : κ) :
    k ∈ dKeys (dOfList l) ↔ k ∈ l.map (·.1) := by
  rw [dOfList, mem_dKeys_dFold]
  simp [dKeys]

theorem ZERO_TOL_pos : (0 : ℚ) < ZERO_TOL := by norm_num [ZERO_TOL]

theorem keySum_filter_abs {κ : Type} [DecidableEq κ] {l : List (κ × ℚ)}
    (hnd : (l.map (·.1)).Nodup) (k : κ) :
    keySum (l.filter fun p => ZERO_TOL < |p.2|) k =
      if ZERO_TOL < |keySum l k| then keySum l k else 0 := by
  have hsub : ((l.filter fun p => ZERO_TOL < |p.2|).map (·.1)).Nodup :=
    hnd.sublist ((List.filter_sublist l).map _)
  by_cases hk : k ∈ l.map (·.1)
  · have hmem : (k, keySum l k) ∈ l := mem_pair_of_nodup hnd hk
    by_cases hP : ZERO_TOL < |keySum l k|
    · rw [if_pos hP]
      exact keySum_of_nodup_mem hsub (List.mem_filter.2 ⟨hmem, by simpa using hP⟩)
    · rw [if_neg hP]
      apply keySum_eq_zero_of_not_mem
      intro hmemf
      rcases List.mem_map.1 hmemf with ⟨p, hp, hpk⟩
      rcases List.mem_filter.1 hp with ⟨hpl, hpv⟩
      have : keySum l k = p.2 := keySum_of_nodup_mem hnd (by rwa [← hpk, Prod.mk.eta])
      exact hP (this ▸ (by simpa using hpv))
  · have h0 : keySum l k = 0 := keySum_eq_zero_of_not_mem hk
    rw [h0, if_neg (by simp [ZERO_TOL_pos.not_lt])]
    apply keySum_eq_zero_of_not_mem
    intro hmemf
    exact hk (by
      rcases List.mem_map.1 hmemf with ⟨p, hp, hpk⟩
      exact List.mem_map.2 ⟨p, (List.mem_filter.1 hp).1, hpk⟩)

/-! ### Triplet-stream and grid lemmas -/

theorem tripsSum_eq_keySum (l : List Trip) (r c : ℕ) :
    tripsSum l r c = keySum (tripPairs l) (r, c) := by
  have aux : ∀ a : ℚ,
      l.foldl (fun a t => if t.2 = (r, c) then a + t.1 else a) a =
        a + keySum (tripPairs l) (r, c) := by
    induction l with
    | nil => intro a; simp [tripPairs, keySum_nil]
    | cons t l ih =>
      intro a
      rw [List.foldl_cons]
      by_cases h : t.2 = (r, c)
      · rw [if_pos h, ih]
        simp only [tripPairs, List.map_cons, keySum_cons, if_pos h]
        ring
      · rw [if_neg h, ih]
        simp only [tripPairs, List.map_cons, keySum_cons, if_neg h, zero_add]
  rw [tripsSum, aux, zero_add]

theorem tripPairs_append (l₁ l₂ : List Trip) :
    tripPairs (l₁ ++ l₂) = tripPairs l₁ ++ tripPairs l₂ := List.map_append _ _ _

theorem tripsSum_append (l₁ l₂ : List Trip) (r c : ℕ) :
    tripsSum (l₁ ++ l₂) r c = tripsSum l₁ r c + tripsSum l₂ r c := by
  rw [tripsSum_eq_keySum, tripPairs_append, keySum_append, ← tripsSum_eq_keySum,
    ← tripsSum_eq_keySum]

theorem cooOfTrips_trips (l : List Trip) (sh : ℕ × ℕ) :
    (cooOfTrips l sh).trips = l := by
  induction l with
  | nil => rfl
  | cons t l ih =>
    show (t.1, t.2.1, t.2.2) :: (cooOfTrips l sh).trips = t :: l
    rw [ih]

theorem eliminateZeros_trips (M : COOMat) (tol : ℚ) :
    (M.eliminateZeros tol).trips = M.trips.filter fun t => tol < |t.1| :=
  cooOfTrips_trips _ _

theorem cooOfTrips_shape (l : List Trip) (sh : ℕ × ℕ) :
    (cooOfTrips l sh).shape = sh := rfl

theorem zip_swap_aux (dl : List ℚ) : ∀ rl cl : List ℕ,
    dl.zip (cl.zip rl) = (dl.zip (rl.zip cl)).map fun t => (t.1, t.2.2, t.2.1) := by
  induction dl with
  | nil => intro rl cl; rfl
  | cons d ds ih =>
    intro rl cl
    cases rl with
    | nil => cases cl <;> rfl
    | cons r rs =>
      cases cl with
      | nil => rfl
      | cons c cs =>
        show (d, c, r) :: ds.zip (cs.zip rs) = (d, c, r) :: _
        rw [ih rs cs]
        rfl

theorem transpose_trips (M : COOMat) :
    M.transpose.trips = M.trips.map fun t => (t.1, t.2.2, t.2.1) :=
  zip_swap_aux M.data M.row M.col

theorem zip_scale_aux (s : ℚ) (dl : List ℚ) : ∀ rl cl : List ℕ,
    (dl.map (· * s)).zip (rl.zip cl) =
      (dl.zip (rl.zip cl)).map fun t => (t.1 * s, t.2) := by
  induction dl with
  | nil => intro rl cl; rfl
  | cons d ds ih =>
    intro rl cl
    cases rl with
    | nil => rfl
    | cons r rs =>
      cases cl with
      | nil => rfl
      | cons c cs =>
        show (d * s, r, c) :: (ds.map (· * s)).zip (rs.zip cs) = (d * s, r, c) :: _
        rw [ih rs cs]
        rfl

theorem scale_trips (M : COOMat) (s : ℚ) :
    (COOMat.mk (M.data.map (· * s)) M.row M.col M.shape).trips =
      M.trips.map fun t => (t.1 * s, t.2) :=
  zip_scale_aux s M.data M.row M.col

theorem mulImpl_zero (M : COOMat) :
    M.mulImpl 0 = ⟨M.data.map (· * 0), M.row, M.col, M.shape⟩ := by
  rw [COOMat.mulImpl, if_neg (by simp)]

theorem mulImpl_trips_of_ne (M : COOMat) {s : ℚ} (hs : s ≠ 0) :
    (M.mulImpl s).trips =
      (M.trips.map fun t => (t.1 * s, t.2)).filter fun t => ZERO_TOL < |t.1| := by
  rw [COOMat.mulImpl, if_pos hs, eliminateZeros_trips, scale_trips]

theorem getD_map_range {α : Type} {i n : ℕ} (h : i < n) (f : ℕ → α) (d : α) :
    ((List.range n).map f).getD i d = f i := by
  rw [List.getD_eq_getElem _ _ (by simpa using h), List.getElem_map,
    List.getElem_range]

theorem getEntry_gridOf {m n r c : ℕ} (hr : r < m) (hc : c < n)
    (f : ℕ → ℕ → ℚ) : getEntry (gridOf m n f) r c = f r c := by
  rw [getEntry, gridOf, getD_map_range hr, getD_map_range hc]

theorem gridOf_congr {m n : ℕ} {f g : ℕ → ℕ → ℚ}
    (h : ∀ r < m, ∀ c < n, f r c = g r c) : gridOf m n f = gridOf m n g := by
  unfold gridOf
  apply List.map_congr_left
  intro r hr
  apply List.map_congr_left
  intro c hc
  exact h r (List.mem_range.1 hr) c (List.mem_range.1 hc)

theorem gridOf_eq_list {m n : ℕ} {f : ℕ → ℕ → ℚ} {D : DenseMat}
    (hlen : D.length = m) (hrow : ∀ row ∈ D, row.length = n)
    (hcells : ∀ r < m, ∀ c < n, f r c = getEntry D r c) : gridOf m n f = D := by
  apply List.ext_getElem
  · simp [gridOf, hlen]
  · intro r h₁ h₂
    have hrm : r < m := by simpa [gridOf] using h₁
    have hDr : D[r].length = n := hrow _ (List.getElem_mem h₂)
    apply List.ext_getElem
    · simp [gridOf, hDr]
    · intro c hc₁ hc₂
      have hcn : c < n := hDr ▸ hc₂
      have hL : (gridOf m n f)[r][c] = f r c := by
        simp [gridOf]
      rw [hL, hcells r hrm c hcn, getEntry,
        List.getD_eq_getElem _ _ (by omega : r < D.length),
        List.getD_eq_getElem _ _ hc₂]

/-! ### Characterization of the COO add kernel -/

theorem tripPairs_itemsToTrips (l : List ((ℕ × ℕ) × ℚ)) :
    tripPairs (itemsToTrips l) = l := by
  unfold tripPairs itemsToTrips
  rw [List.map_map, show ((fun (t : Trip) => (t.2, t.1)) ∘
    fun (p : (ℕ × ℕ) × ℚ) => (p.2, p.1)) = id from funext fun p => rfl,
    List.map_id]

theorem keySum_dOfList {κ : Type} [DecidableEq κ] (l : List (κ × ℚ)) (k : κ) :
    keySum (dOfList l) k = keySum l k := by
  rw [← dGetD_eq_keySum_of_nodup (nodup_dKeys_dOfList l), dGetD_dOfList]

theorem addCell (A : COOMat) (o : List Trip) (r c : ℕ) :
    tripsSum (cooAddImpl A o).trips r c =
      if ZERO_TOL < |tripsSum (A.trips ++ o) r c| then
        tripsSum (A.trips ++ o) r c
      else 0 := by
  have hpairs : ((A.trips ++ o).map fun t => (t.2, t.1)) = tripPairs (A.trips ++ o) :=
    rfl
  have hS : tripsSum (A.trips ++ o) r c = keySum (tripPairs (A.trips ++ o)) (r, c) :=
    tripsSum_eq_keySum _ _ _
  simp only [cooAddImpl, hpairs]
  by_cases hE : (dOfList (tripPairs (A.trips ++ o))).isEmpty
  · rw [if_pos hE, cooOfTrips_trips]
    have hdnil : dOfList (tripPairs (A.trips ++ o)) = [] := by
      rwa [List.isEmpty_iff] at hE
    have h0 : keySum (tripPairs (A.trips ++ o)) (r, c) = 0 := by
      apply keySum_eq_zero_of_not_mem
      intro hm
      have hmem := (mem_dKeys_dOfList (tripPairs (A.trips ++ o)) (r, c)).2 hm
      rw [hdnil] at hmem
      simp [dKeys] at hmem
    rw [hS, h0, tripsSum, List.foldl_nil,
      if_neg (by simp [ZERO_TOL_pos.not_lt])]
  · rw [if_neg hE, eliminateZeros_trips, cooOfTrips_trips, tripsSum_eq_keySum]
    have hcomm : ((itemsToTrips (sortItems (dOfList (tripPairs (A.trips ++ o))))).filter
          fun t => ZERO_TOL < |t.1|) =
        itemsToTrips ((sortItems (dOfList (tripPairs (A.trips ++ o)))).filter
          fun p => ZERO_TOL < |p.2|) := by
      simp only [itemsToTrips, List.filter_map]
      rfl
    rw [hcomm, tripPairs_itemsToTrips]
    have hperm : ((sortItems (dOfList (tripPairs (A.trips ++ o)))).filter
          fun p => ZERO_TOL < |p.2|).Perm
        ((dOfList (tripPairs (A.trips ++ o))).filter fun p => ZERO_TOL < |p.2|) :=
      (List.perm_insertionSort keyLe _).filter _
    rw [keySum_perm hperm,
      keySum_filter_abs (nodup_dKeys_dOfList (tripPairs (A.trips ++ o))),
      keySum_dOfList, hS]

/-! ### Overwrite-scatter lemmas and stream bridges -/

theorem ovw_no_key {l : List (ℕ × ℚ)} {c : ℕ} (h : ∀ p ∈ l, p.1 ≠ c) (a : ℚ) :
    l.foldl (fun acc p => if p.1 = c then p.2 else acc) a = a := by
  induction l generalizing a with
  | nil => rfl
  | cons p l ih =>
    rw [List.foldl_cons, if_neg (h p (.head l)), ih fun q hq => h q (.tail p hq)]

theorem ovw_eq_keySum_of_nodup {l : List (ℕ × ℚ)} (hnd : (l.map (·.1)).Nodup)
    (c : ℕ) : l.foldl (fun acc p => if p.1 = c then p.2 else acc) 0 = keySum l c := by
  induction l with
  | nil => rfl
  | cons p l ih =>
    simp only [List.map_cons, List.nodup_cons] at hnd
    rw [List.foldl_cons, keySum_cons]
    by_cases h : p.1 = c
    · rw [if_pos h,
        ovw_no_key (fun q hq hqc =>
          hnd.1 (by rw [h, ← hqc]; exact List.mem_map.2 ⟨q, hq, rfl⟩)),
        keySum_eq_zero_of_not_mem (fun hm => hnd.1 (by rwa [h])), add_zero]
    · rw [if_neg h, ih hnd.2, zero_add]

theorem ovw_eq_lastWrite (l : List (ℕ × ℚ)) (c : ℕ) (a : ℚ) :
    l.foldl (fun acc p => if p.1 = c then p.2 else acc) a =
      (((l.filter fun p => p.1 = c).map (·.2)).getLast?).getD a := by
  induction l using List.reverseRecOn generalizing a with
  | nil => rfl
  | append_singleton l p ih =>
    rw [List.foldl_append, List.foldl_cons, List.foldl_nil, List.filter_append,
      List.map_append, List.getLast?_append]
    by_cases h : p.1 = c
    · simp [h]
    · simp only [List.filter_cons, h, decide_False, List.filter_nil,
        List.map_nil, Option.or_none]
      exact ih a

theorem dGetD_eq_zero_of_not_mem {κ : Type} [DecidableEq κ] {l : List (κ × ℚ)}
    {k : κ} (h : k ∉ l.map (·.1)) : dGetD l k = 0 := by
  induction l with
  | nil => rfl
  | cons p l ih =>
    simp only [List.map_cons, List.mem_cons] at h
    push_neg at h
    rw [dGetD, if_neg (fun hp => h.1 hp.symm), ih h.2]

theorem keySum_guardMap {l : List ℕ} (hnd : l.Nodup) (P : ℕ → Prop)
    [DecidablePred P] (f : ℕ → ℚ) (c : ℕ) :
    keySum (l.filterMap fun j => if P j then some (j, f j) else none) c =
      if c ∈ l ∧ P c then f c else 0 := by
  induction l with
  | nil => simp [keySum_nil]
  | cons j l ih =>
    simp only [List.nodup_cons] at hnd
    rw [List.filterMap_cons]
    by_cases hP : P j
    · rw [if_pos hP, keySum_cons, ih hnd.2 ]
      by_cases hc : j = c
      · subst hc
        rw [if_pos (show ((j, f j).1 = j) from rfl),
          if_neg (fun hm : j ∈ l ∧ P j => hnd.1 hm.1), add_zero,
          if_pos (show (j ∈ j :: l ∧ P j) from ⟨List.mem_cons_self j l, hP⟩)]
      · rw [if_neg (show ¬((j, f j).1 = c) from hc), zero_add]
        have hiff : (c ∈ j :: l ∧ P c) ↔ (c ∈ l ∧ P c) := by
          rw [List.mem_cons, or_iff_right (fun he => hc he.symm)]
        rw [if_congr hiff rfl rfl]
    · rw [if_neg hP, ih hnd.2]
      have : (c ∈ j :: l ∧ P c) ↔ (c ∈ l ∧ P c) := by
        rw [List.mem_cons]
        constructor
        · rintro ⟨rfl | hm, hPc⟩
          · exact absurd hPc hP
          · exact ⟨hm, hPc⟩
        · exact fun ⟨hm, hPc⟩ => ⟨.inr hm, hPc⟩
      rw [if_congr this rfl rfl]

theorem keySum_scale_snd {κ : Type} [DecidableEq κ] (l : List (κ × ℚ)) (s : ℚ)
    (k : κ) : keySum (l.map fun p => (p.1, p.2 * s)) k = keySum l k * s := by
  induction l with
  | nil => simp [keySum_nil]
  | cons p l ih =>
    rw [List.map_cons, keySum_cons, keySum_cons, ih, add_mul]
    by_cases h : p.1 = k
    · rw [if_pos h, if_pos h]
    · rw [if_neg h, if_neg h, zero_mul]

theorem tripsSum_cons (t : Trip) (l : List Trip) (r c : ℕ) :
    tripsSum (t :: l) r c =
      (if t.2 = (r, c) then t.1 else 0) + tripsSum l r c := by
  rw [tripsSum_eq_keySum, tripsSum_eq_keySum, tripPairs, List.map_cons,
    keySum_cons]
  rfl

theorem tripsSum_nil (r c : ℕ) : tripsSum [] r c = 0 := rfl

theorem tripsSum_map_swap (l : List Trip) (r c : ℕ) :
    tripsSum (l.map fun t => (t.1, t.2.2, t.2.1)) r c = tripsSum l c r := by
  induction l with
  | nil => rfl
  | cons t l ih =>
    rw [List.map_cons, tripsSum_cons, tripsSum_cons, ih]
    have : ((t.1, t.2.2, t.2.1) : Trip).2 = (r, c) ↔ t.2 = (c, r) := by
      simp [Prod.ext_iff, and_comm]
    by_cases h : t.2 = (c, r)
    · rw [if_pos (this.2 h), if_pos h]
    · rw [if_neg (fun hh => h (this.1 hh)), if_neg h]

theorem tripsSum_map_scale (l : List Trip) (s : ℚ) (r c : ℕ) :
    tripsSum (l.map fun t => (t.1 * s, t.2)) r c = tripsSum l r c * s := by
  induction l with
  | nil => simp [tripsSum_nil]
  | cons t l ih =>
    rw [List.map_cons, tripsSum_cons, tripsSum_cons, ih, add_mul]
    by_cases h : t.2 = (r, c)
    · rw [if_pos h, if_pos h]
    · rw [if_neg h, if_neg h, zero_mul]

/-! ### Characterization of the conversion segments -/

theorem nodup_dKeys_segDict (l : List (ℕ × ℕ × ℚ)) (p : ℕ) :
    (dKeys (segDict l p)).Nodup := nodup_dKeys_dOfList _

theorem dGetD_segDict (l : List (ℕ × ℕ × ℚ)) (p k : ℕ) :
    dGetD (segDict l p) k =
      keySum ((l.filter fun t => t.1 = p).map fun t => (t.2.1, t.2.2)) k :=
  dGetD_dOfList _ _

theorem mem_dKeys_segDict (l : List (ℕ × ℕ × ℚ)) (p k : ℕ) :
    k ∈ dKeys (segDict l p) ↔ ∃ t ∈ l, t.1 = p ∧ t.2.1 = k := by
  rw [segDict, mem_dKeys_dOfList]
  constructor
  · intro hm
    rcases List.mem_map.1 hm with ⟨q, hq, rfl⟩
    rcases List.mem_map.1 hq with ⟨t, ht, rfl⟩
    exact ⟨t, (List.mem_filter.1 ht).1, by simpa using (List.mem_filter.1 ht).2, rfl⟩
  · rintro ⟨t, ht, hp, hk⟩
    exact List.mem_map.2 ⟨(t.2.1, t.2.2),
      List.mem_map.2 ⟨t, List.mem_filter.2 ⟨ht, by simpa using hp⟩, rfl⟩, hk⟩

theorem mem_segOut {l : List (ℕ × ℕ × ℚ)} {p k : ℕ} {v : ℚ} :
    (k, v) ∈ segOut l p ↔
      k ∈ dKeys (segDict l p) ∧ v = dGetD (segDict l p) k ∧ ZERO_TOL < |v| := by
  rw [segOut, List.mem_filterMap]
  constructor
  · rintro ⟨a, ha, hfa⟩
    by_cases hc : ZERO_TOL < |dGetD (segDict l p) a|
    · rw [if_pos hc] at hfa
      have h1 : a = k := congrArg (·.1) (Option.some.inj hfa)
      have h2 : dGetD (segDict l p) a = v := congrArg (·.2) (Option.some.inj hfa)
      subst h1
      exact ⟨(List.Perm.mem_iff (List.perm_insertionSort _ _)).1 ha, h2.symm,
        h2 ▸ hc⟩
    · rw [if_neg hc] at hfa
      exact absurd hfa (by simp)
  · rintro ⟨hk, hv, htol⟩
    refine ⟨k, (List.Perm.mem_iff (List.perm_insertionSort _ _)).2 hk, ?_⟩
    rw [if_pos (by rwa [← hv]), hv]

theorem filterMap_guard {α : Type} (l : List α) (P : α → Prop) [DecidablePred P] :
    (l.filterMap fun a => if P a then some a else none) = l.filter fun a => P a := by
  induction l with
  | nil => rfl
  | cons a l ih =>
    by_cases h : P a
    · rw [List.filterMap_cons_some (by rw [if_pos h]), ih,
        List.filter_cons, if_pos (decide_eq_true h)]
    · rw [List.filterMap_cons_none (by rw [if_neg h]), ih,
        List.filter_cons, if_neg (by simp [h])]

theorem keys_segOut (l : List (ℕ × ℕ × ℚ)) (p : ℕ) :
    (segOut l p).map (·.1) =
      (List.insertionSort (· ≤ ·) ((segDict l p).map (·.1))).filter
        fun k => ZERO_TOL < |dGetD (segDict l p) k| := by
  rw [segOut, List.map_filterMap]
  have hfn : ∀ a : ℕ,
      ((if ZERO_TOL < |dGetD (segDict l p) a| then some (a, dGetD (segDict l p) a)
        else none).map fun x => x.1) =
      (if ZERO_TOL < |dGetD (segDict l p) a| then some a else none) := by
    intro a
    by_cases h : ZERO_TOL < |dGetD (segDict l p) a| <;> simp [h]
  simp only [hfn]
  exact filterMap_guard _ _

theorem sorted_keys_segOut (l : List (ℕ × ℕ × ℚ)) (p : ℕ) :
    ((segOut l p).map (·.1)).Sorted (· < ·) := by
  rw [keys_segOut]
  have hsorted : (List.insertionSort (· ≤ ·) ((segDict l p).map (·.1))).Sorted
      (· ≤ ·) := List.sorted_insertionSort _ _
  have hnd : (List.insertionSort (· ≤ ·) ((segDict l p).map (·.1))).Nodup :=
    ((List.perm_insertionSort _ _).nodup_iff).2 (nodup_dKeys_segDict l p)
  have hlt : (List.insertionSort (· ≤ ·) ((segDict l p).map (·.1))).Sorted
      (· < ·) := (hsorted.and hnd).imp fun h => lt_of_le_of_ne h.1 h.2
  exact hlt.sublist (List.filter_sublist _)

theorem nodup_keys_segOut (l : List (ℕ × ℕ × ℚ)) (p : ℕ) :
    ((segOut l p).map (·.1)).Nodup :=
  (sorted_keys_segOut l p).imp ne_of_lt

theorem keySum_segOut (l : List (ℕ × ℕ × ℚ)) (p k : ℕ) :
    keySum (segOut l p) k =
      if ZERO_TOL < |dGetD (segDict l p) k| then dGetD (segDict l p) k else 0 := by
  have hnd : ((segOut l p).map (·.1)).Nodup := nodup_keys_segOut l p
  by_cases hk : k ∈ dKeys (segDict l p)
  · by_cases hc : ZERO_TOL < |dGetD (segDict l p) k|
    · rw [if_pos hc]
      exact keySum_of_nodup_mem hnd (mem_segOut.2 ⟨hk, rfl, hc⟩)
    · rw [if_neg hc]
      apply keySum_eq_zero_of_not_mem
      intro hm
      rcases List.mem_map.1 hm with ⟨q, hq, rfl⟩
      rcases mem_segOut.1 (show (q.1, q.2) ∈ segOut l p from hq) with ⟨_, hv, htol⟩
      exact hc (hv ▸ htol)
  · rw [dGetD_eq_zero_of_not_mem hk, if_neg (by simp [ZERO_TOL_pos.not_lt])]
    apply keySum_eq_zero_of_not_mem
    intro hm
    rcases List.mem_map.1 hm with ⟨q, hq, rfl⟩
    exact hk (mem_segOut.1 (show (q.1, q.2) ∈ segOut l p from hq)).1

theorem keySum_csrOrient (T : List Trip) (i c : ℕ) :
    keySum (((T.map fun t => (t.2.1, t.2.2, t.1)).filter fun u => u.1 = i).map
      fun u => (u.2.1, u.2.2)) c = tripsSum T i c := by
  induction T with
  | nil => rfl
  | cons t T ih =>
    rw [List.map_cons, tripsSum_cons]
    by_cases h1 : t.2.1 = i
    · rw [List.filter_cons, if_pos (decide_eq_true h1), List.map_cons, keySum_cons]
      by_cases h2 : t.2.2 = c
      · rw [if_pos (show ((t.2.2, t.1) : ℕ × ℚ).1 = c from h2),
          if_pos (Prod.ext_iff.2 ⟨h1, h2⟩), ih]
      · rw [if_neg (show ¬((t.2.2, t.1) : ℕ × ℚ).1 = c from h2),
          if_neg (fun hh => h2 (Prod.ext_iff.1 hh).2), ih, zero_add]
    · rw [List.filter_cons, if_neg (by simp [h1]), ih,
        if_neg (fun hh => h1 (Prod.ext_iff.1 hh).1), zero_add]

theorem keySum_cscOrient (T : List Trip) (j r : ℕ) :
    keySum (((T.map fun t => (t.2.2, t.2.1, t.1)).filter fun u => u.1 = j).map
      fun u => (u.2.1, u.2.2)) r = tripsSum T r j := by
  induction T with
  | nil => rfl
  | cons t T ih =>
    rw [List.map_cons, tripsSum_cons]
    by_cases h1 : t.2.2 = j
    · rw [List.filter_cons, if_pos (decide_eq_true h1), List.map_cons, keySum_cons]
      by_cases h2 : t.2.1 = r
      · rw [if_pos (show ((t.2.1, t.1) : ℕ × ℚ).1 = r from h2),
          if_pos (Prod.ext_iff.2 ⟨h2, h1⟩), ih]
      · rw [if_neg (show ¬((t.2.1, t.1) : ℕ × ℚ).1 = r from h2),
          if_neg (fun hh => h2 (Prod.ext_iff.1 hh).1), ih, zero_add]
    · rw [List.filter_cons, if_neg (by simp [h1]), ih,
        if_neg (fun hh => h1 (Prod.ext_iff.1 hh).2), zero_add]

theorem dGetD_segDict_csrOrient (T : List Trip) (i c : ℕ) :
    dGetD (segDict (T.map fun t => (t.2.1, t.2.2, t.1)) i) c = tripsSum T i c := by
  rw [dGetD_segDict]
  exact keySum_csrOrient T i c

theorem dGetD_segDict_cscOrient (T : List Trip) (j r : ℕ) :
    dGetD (segDict (T.map fun t => (t.2.2, t.2.1, t.1)) j) r = tripsSum T r j := by
  rw [dGetD_segDict]
  exact keySum_cscOrient T j r

/-! ### Extraction of packed segments -/

/-- Offset of segment `i` inside the packed arrays. -/
def segsOff (segs : List (List (ℕ × ℚ))) (i : ℕ) : ℕ :=
  ((segs.take i).map List.length).sum

theorem getD_segsIndptr (segs : List (List (ℕ × ℚ))) {j : ℕ}
    (hj : j < segs.length + 1) : (segsIndptr segs).getD j 0 = segsOff segs j :=
  getD_map_range hj _ _

theorem segsOff_succ (segs : List (List (ℕ × ℚ))) {i : ℕ}
    (hi : i < segs.length) :
    segsOff segs (i + 1) = segsOff segs i + (segs.getD i []).length := by
  unfold segsOff
  rw [List.take_succ, List.map_append, List.sum_append,
    List.getElem?_eq_getElem hi]
  simp [List.getD_eq_getElem _ _ hi, List.getElem?_eq_getElem hi]

theorem flatten_getD {α : Type} (d : α) :
    ∀ (L : List (List α)) (i t : ℕ), i < L.length → t < (L.getD i []).length →
      L.flatten.getD (((L.take i).map List.length).sum + t) d =
        (L.getD i []).getD t d := by
  intro L
  induction L with
  | nil =>
    intro i t hi
    simp at hi
  | cons h T ih =>
    intro i t hi ht
    cases i with
    | zero =>
      simp only [List.take_zero, List.map_nil, List.sum_nil, zero_add,
        List.flatten_cons]
      have hh : (h :: T).getD 0 [] = h := rfl
      rw [hh] at ht ⊢
      exact List.getD_append _ _ _ _ ht
    | succ i =>
      simp only [List.flatten_cons, List.take_succ_cons, List.map_cons,
        List.sum_cons]
      have hh : (h :: T).getD (i + 1) [] = T.getD i [] := rfl
      rw [hh] at ht ⊢
      have hi' : i < T.length := by simpa using hi
      rw [add_assoc, List.getD_append_right _ _ _ _ (by omega),
        add_comm h.length _, Nat.add_sub_cancel]
      exact ih i t hi' ht

theorem map_length_mapped (segs : List (List (ℕ × ℚ)))
    (f : (ℕ × ℚ) → ℕ) :
    (segs.map fun s => s.map f).map List.length = segs.map List.length := by
  rw [List.map_map]
  apply List.map_congr_left
  intro s _
  simp [Function.comp]

theorem map_length_mapped_q (segs : List (List (ℕ × ℚ)))
    (f : (ℕ × ℚ) → ℚ) :
    (segs.map fun s => s.map f).map List.length = segs.map List.length := by
  rw [List.map_map]
  apply List.map_congr_left
  intro s _
  simp [Function.comp]

theorem packed_flatten_getD_n (segs : List (List (ℕ × ℚ))) {i t : ℕ}
    (hi : i < segs.length) (ht : t < (segs.getD i []).length) :
    (segsIndices segs).getD (segsOff segs i + t) 0 = ((segs.getD i []).getD t (0, 0)).1 := by
  unfold segsIndices
  have hL : i < (segs.map fun s => s.map (·.1)).length := by simpa using hi
  have hoff : ((( segs.map fun s => s.map (·.1)).take i).map List.length).sum =
      segsOff segs i := by
    rw [← List.map_take, map_length_mapped]
    rfl
  have hinner : ((segs.map fun s => s.map (·.1)).getD i []) =
      (segs.getD i []).map (·.1) := by
    rw [List.getD_eq_getElem _ _ hL, List.getElem_map,
      List.getD_eq_getElem _ _ hi]
  have ht' : t < ((segs.map fun s => s.map (·.1)).getD i []).length := by
    rw [hinner]
    simpa using ht
  rw [← hoff, flatten_getD _ _ _ _ hL ht', hinner,
    List.getD_eq_getElem _ _ (by simpa using ht), List.getElem_map,
    List.getD_eq_getElem _ _ ht]

theorem packed_flatten_getD_q (segs : List (List (ℕ × ℚ))) {i t : ℕ}
    (hi : i < segs.length) (ht : t < (segs.getD i []).length) :
    (segsData segs).getD (segsOff segs i + t) 0 = ((segs.getD i []).getD t (0, 0)).2 := by
  unfold segsData
  have hL : i < (segs.map fun s => s.map (·.2)).length := by simpa using hi
  have hoff : ((( segs.map fun s => s.map (·.2)).take i).map List.length).sum =
      segsOff segs i := by
    rw [← List.map_take, map_length_mapped_q]
    rfl
  have hinner : ((segs.map fun s => s.map (·.2)).getD i []) =
      (segs.getD i []).map (·.2) := by
    rw [List.getD_eq_getElem _ _ hL, List.getElem_map,
      List.getD_eq_getElem _ _ hi]
  have ht' : t < ((segs.map fun s => s.map (·.2)).getD i []).length := by
    rw [hinner]
    simpa using ht
  rw [← hoff, flatten_getD _ _ _ _ hL ht', hinner,
    List.getD_eq_getElem _ _ (by simpa using ht), List.getElem_map,
    List.getD_eq_getElem _ _ ht]

theorem packed_seg (segs : List (List (ℕ × ℚ))) {i : ℕ} (hi : i < segs.length) :
    ((List.range' ((segsIndptr segs).getD i 0)
        ((segsIndptr segs).getD (i + 1) 0 - (segsIndptr segs).getD i 0)).map
      fun idx => ((segsIndices segs).getD idx 0, (segsData segs).getD idx 0)) =
      segs.getD i [] := by
  rw [getD_segsIndptr segs (by omega), getD_segsIndptr segs (by omega),
    segsOff_succ segs hi, Nat.add_sub_cancel_left]
  apply List.ext_getElem
  · simp [List.length_range']
  · intro t h₁ h₂
    have htl : t < (segs.getD i []).length := h₂
    rw [List.getElem_map, List.getElem_range', one_mul]
    rw [packed_flatten_getD_n segs hi htl, packed_flatten_getD_q segs hi htl]
    rw [List.getD_eq_getElem _ _ htl]

theorem csr_seg_packed (segs : List (List (ℕ × ℚ))) (sh : ℕ × ℕ) {i : ℕ}
    (hi : i < segs.length) :
    (CSRMat.mk (segsData segs) (segsIndices segs) (segsIndptr segs) sh).seg i =
      segs.getD i [] :=
  packed_seg segs hi

theorem csc_seg_packed (segs : List (List (ℕ × ℚ))) (sh : ℕ × ℕ) {j : ℕ}
    (hj : j < segs.length) :
    (CSCMat.mk (segsData segs) (segsIndices segs) (segsIndptr segs) sh).seg j =
      segs.getD j [] :=
  packed_seg segs hj

/-! ### Cell semantics of conversions -/

theorem tripsSum_mapRow (F : List (ℕ × ℚ)) (i r c : ℕ) :
    tripsSum (F.map fun p => (p.2, i, p.1)) r c =
      if i = r then keySum F c else 0 := by
  induction F with
  | nil => simp [tripsSum_nil, keySum_nil]
  | cons p F ih =>
    rw [List.map_cons, tripsSum_cons, ih, keySum_cons]
    by_cases hir : i = r <;> by_cases hc : p.1 = c <;>
      simp [hir, hc, Prod.ext_iff]

theorem tripsSum_mapCol (F : List (ℕ × ℚ)) (j r c : ℕ) :
    tripsSum (F.map fun p => (p.2, p.1, j)) r c =
      if j = c then keySum F r else 0 := by
  induction F with
  | nil => simp [tripsSum_nil, keySum_nil]
  | cons p F ih =>
    rw [List.map_cons, tripsSum_cons, ih, keySum_cons]
    by_cases hjc : j = c <;> by_cases hr : p.1 = r <;>
      simp [hjc, hr, Prod.ext_iff]

theorem tripsSum_flatMapRow (n : ℕ) (F : ℕ → List (ℕ × ℚ)) (r c : ℕ) :
    tripsSum ((List.range n).flatMap fun i => (F i).map fun p => (p.2, i, p.1)) r c =
      if r < n then keySum (F r) c else 0 := by
  induction n with
  | zero => simp [tripsSum_nil]
  | succ n ih =>
    rw [List.range_succ, List.flatMap_append, tripsSum_append, ih,
      List.flatMap_cons, List.flatMap_nil, List.append_nil, tripsSum_mapRow]
    by_cases h1 : r < n
    · rw [if_pos h1, if_neg (by omega), add_zero, if_pos (by omega)]
    · by_cases h2 : n = r
      · subst h2
        rw [if_neg h1, if_pos rfl, zero_add, if_pos (by omega)]
      · rw [if_neg h1, if_neg h2, add_zero, if_neg (by omega)]

theorem tripsSum_flatMapCol (n : ℕ) (F : ℕ → List (ℕ × ℚ)) (r c : ℕ) :
    tripsSum ((List.range n).flatMap fun j => (F j).map fun p => (p.2, p.1, j)) r c =
      if c < n then keySum (F c) r else 0 := by
  induction n with
  | zero => simp [tripsSum_nil]
  | succ n ih =>
    rw [List.range_succ, List.flatMap_append, tripsSum_append, ih,
      List.flatMap_cons, List.flatMap_nil, List.append_nil, tripsSum_mapCol]
    by_cases h1 : c < n
    · rw [if_pos h1, if_neg (by omega), add_zero, if_pos (by omega)]
    · by_cases h2 : n = c
      · subst h2
        rw [if_neg h1, if_pos rfl, zero_add, if_pos (by omega)]
      · rw [if_neg h1, if_neg h2, add_zero, if_neg (by omega)]

theorem csr_toCoo_tripsSum (M : CSRMat) (r c : ℕ) :
    tripsSum M.toCoo.trips r c =
      if r < M.shape.1 then keySum (M.seg r) c else 0 := by
  rw [CSRMat.toCoo, cooOfTrips_trips, tripsSum_flatMapRow]

theorem csc_toCoo_tripsSum (P : CSCMat) (r c : ℕ) :
    tripsSum P.toCoo.trips r c =
      if c < P.shape.2 then keySum (P.seg c) r else 0 := by
  rw [CSCMat.toCoo, cooOfTrips_trips, tripsSum_flatMapCol]

theorem cooToCsr_seg (M : COOMat) {i : ℕ} (hi : i < M.shape.1) :
    (cooToCsr M).seg i = segOut (M.trips.map fun t => (t.2.1, t.2.2, t.1)) i := by
  have hmk : cooToCsr M = CSRMat.mk
      (segsData (buildSegs (M.trips.map fun t => (t.2.1, t.2.2, t.1)) M.shape.1))
      (segsIndices (buildSegs (M.trips.map fun t => (t.2.1, t.2.2, t.1)) M.shape.1))
      (segsIndptr (buildSegs (M.trips.map fun t => (t.2.1, t.2.2, t.1)) M.shape.1))
      M.shape := rfl
  have hlen : (buildSegs (M.trips.map fun t => (t.2.1, t.2.2, t.1))
      M.shape.1).length = M.shape.1 := by simp [buildSegs]
  rw [hmk, csr_seg_packed _ _ (by omega), buildSegs, getD_map_range hi]

theorem cooToCsc_seg (M : COOMat) {j : ℕ} (hj : j < M.shape.2) :
    (cooToCsc M).seg j = segOut (M.trips.map fun t => (t.2.2, t.2.1, t.1)) j := by
  have hmk : cooToCsc M = CSCMat.mk
      (segsData (buildSegs (M.trips.map fun t => (t.2.2, t.2.1, t.1)) M.shape.2))
      (segsIndices (buildSegs (M.trips.map fun t => (t.2.2, t.2.1, t.1)) M.shape.2))
      (segsIndptr (buildSegs (M.trips.map fun t => (t.2.2, t.2.1, t.1)) M.shape.2))
      M.shape := rfl
  have hlen : (buildSegs (M.trips.map fun t => (t.2.2, t.2.1, t.1))
      M.shape.2).length = M.shape.2 := by simp [buildSegs]
  rw [hmk, csc_seg_packed _ _ (by omega), buildSegs, getD_map_range hj]

theorem cooToCsr_cell (M : COOMat) {r c : ℕ} (hr : r < M.shape.1)
    (hc : c < M.shape.2) :
    getEntry (cooToCsr M).toDense r c =
      if ZERO_TOL < |tripsSum M.trips r c| then tripsSum M.trips r c else 0 := by
  rw [CSRMat.toDense, show (cooToCsr M).shape = M.shape from rfl,
    getEntry_gridOf hr hc, cooToCsr_seg M hr,
    ovw_eq_keySum_of_nodup (nodup_keys_segOut _ _), keySum_segOut,
    dGetD_segDict_csrOrient]

theorem cooToCsc_cell (M : COOMat) {r c : ℕ} (hr : r < M.shape.1)
    (hc : c < M.shape.2) :
    getEntry (cooToCsc M).toDense r c =
      if ZERO_TOL < |tripsSum M.trips r c| then tripsSum M.trips r c else 0 := by
  rw [CSCMat.toDense, show (cooToCsc M).shape = M.shape from rfl,
    getEntry_gridOf hr hc, cooToCsc_seg M hc,
    ovw_eq_keySum_of_nodup (nodup_keys_segOut _ _), keySum_segOut,
    dGetD_segDict_cscOrient]

theorem cooToCsr_toCoo_tripsSum (M : COOMat) (r c : ℕ) :
    tripsSum (cooToCsr M).toCoo.trips r c =
      if r < M.shape.1 ∧ ZERO_TOL < |tripsSum M.trips r c| then
        tripsSum M.trips r c
      else 0 := by
  rw [csr_toCoo_tripsSum, show (cooToCsr M).shape = M.shape from rfl]
  by_cases hr : r < M.shape.1
  · rw [if_pos hr, cooToCsr_seg M hr, keySum_segOut, dGetD_segDict_csrOrient]
    by_cases htol : ZERO_TOL < |tripsSum M.trips r c|
    · rw [if_pos htol, if_pos ⟨hr, htol⟩]
    · rw [if_neg htol, if_neg (fun hh => htol hh.2)]
  · rw [if_neg hr, if_neg (fun hh => hr hh.1)]

theorem cooToCsc_toCoo_tripsSum (M : COOMat) (r c : ℕ) :
    tripsSum (cooToCsc M).toCoo.trips r c =
      if c < M.shape.2 ∧ ZERO_TOL < |tripsSum M.trips r c| then
        tripsSum M.trips r c
      else 0 := by
  rw [csc_toCoo_tripsSum, show (cooToCsc M).shape = M.shape from rfl]
  by_cases hc : c < M.shape.2
  · rw [if_pos hc, cooToCsc_seg M hc, keySum_segOut, dGetD_segDict_cscOrient]
    by_cases htol : ZERO_TOL < |tripsSum M.trips r c|
    · rw [if_pos htol, if_pos ⟨hc, htol⟩]
    · rw [if_neg htol, if_neg (fun hh => htol hh.2)]
  · rw [if_neg hc, if_neg (fun hh => hc hh.1)]

theorem getD_map_mul (l : List ℚ) (s : ℚ) (i : ℕ) :
    (l.map (· * s)).getD i 0 = l.getD i 0 * s := by
  induction l generalizing i with
  | nil => simp
  | cons a l ih =>
    cases i with
    | zero => rfl
    | succ n => exact ih n

theorem csr_mul_seg (M : CSRMat) {s : ℚ} (hs : ¬(s = 0)) (i : ℕ) :
    (M.mulImpl s).seg i = (M.seg i).map fun p => (p.1, p.2 * s) := by
  rw [CSRMat.mulImpl, if_neg hs]
  unfold CSRMat.seg
  rw [List.map_map]
  apply List.map_congr_left
  intro idx _
  show (M.indices.getD idx 0, (M.data.map (· * s)).getD idx 0) =
    (M.indices.getD idx 0, M.data.getD idx 0 * s)
  rw [getD_map_mul]

theorem csc_mul_seg (P : CSCMat) {s : ℚ} (hs : ¬(s = 0)) (j : ℕ) :
    (P.mulImpl s).seg j = (P.seg j).map fun p => (p.1, p.2 * s) := by
  rw [CSCMat.mulImpl, if_neg hs]
  unfold CSCMat.seg
  rw [List.map_map]
  apply List.map_congr_left
  intro idx _
  show (P.indices.getD idx 0, (P.data.map (· * s)).getD idx 0) =
    (P.indices.getD idx 0, P.data.getD idx 0 * s)
  rw [getD_map_mul]

/-! ### Clean compressed matrices and dense extensionality -/

/-- A CSR matrix whose row segments have pairwise-distinct column indices and
whose stored values all exceed the zero tolerance (the state in which the
conversion layer emits compressed matrices). -/
def CSRMat.Clean (M : CSRMat) : Prop :=
  ∀ i < M.shape.1, ((M.seg i).map (·.1)).Nodup ∧ ∀ p ∈ M.seg i, ZERO_TOL < |p.2|

/-- Mirror of `CSRMat.Clean` for CSC matrices. -/
def CSCMat.Clean (P : CSCMat) : Prop :=
  ∀ j < P.shape.2, ((P.seg j).map (·.1)).Nodup ∧ ∀ p ∈ P.seg j, ZERO_TOL < |p.2|

theorem csr_cell (M : CSRMat) {r c : ℕ} (hr : r < M.shape.1)
    (hc : c < M.shape.2) :
    getEntry M.toDense r c =
      (M.seg r).foldl (fun acc p => if p.1 = c then p.2 else acc) 0 := by
  rw [CSRMat.toDense, getEntry_gridOf hr hc]

theorem csc_cell (P : CSCMat) {r c : ℕ} (hr : r < P.shape.1)
    (hc : c < P.shape.2) :
    getEntry P.toDense r c =
      (P.seg c).foldl (fun acc p => if p.1 = r then p.2 else acc) 0 := by
  rw [CSCMat.toDense, getEntry_gridOf hr hc]

theorem coo_cell (M : COOMat) {r c : ℕ} (hr : r < M.shape.1)
    (hc : c < M.shape.2) :
    getEntry M.toDense r c = tripsSum M.trips r c := by
  rw [COOMat.toDense, getEntry_gridOf hr hc]

theorem csr_toDense_congr {X Y : CSRMat} (hsh : X.shape = Y.shape)
    (h : ∀ r < X.shape.1, ∀ c < X.shape.2,
      getEntry X.toDense r c = getEntry Y.toDense r c) :
    X.toDense = Y.toDense := by
  rw [CSRMat.toDense, CSRMat.toDense, ← hsh]
  apply gridOf_congr
  intro r hr c hc
  have hx := h r hr c hc
  rwa [csr_cell X hr hc, csr_cell Y (hsh ▸ hr) (hsh ▸ hc)] at hx

theorem csc_toDense_congr {X Y : CSCMat} (hsh : X.shape = Y.shape)
    (h : ∀ r < X.shape.1, ∀ c < X.shape.2,
      getEntry X.toDense r c = getEntry Y.toDense r c) :
    X.toDense = Y.toDense := by
  rw [CSCMat.toDense, CSCMat.toDense, ← hsh]
  apply gridOf_congr
  intro r hr c hc
  have hx := h r hr c hc
  rwa [csc_cell X hr hc, csc_cell Y (hsh ▸ hr) (hsh ▸ hc)] at hx

theorem coo_toDense_congr {X Y : COOMat} (hsh : X.shape = Y.shape)
    (h : ∀ r < X.shape.1, ∀ c < X.shape.2,
      tripsSum X.trips r c = tripsSum Y.trips r c) : X.toDense = Y.toDense := by
  rw [COOMat.toDense, COOMat.toDense, ← hsh]
  exact gridOf_congr h

theorem mixed_toDense_congr_csr_coo {X : CSRMat} {Y : COOMat}
    (hsh : X.shape = Y.shape)
    (h : ∀ r < X.shape.1, ∀ c < X.shape.2,
      getEntry X.toDense r c = tripsSum Y.trips r c) : X.toDense = Y.toDense := by
  rw [CSRMat.toDense, COOMat.toDense, ← hsh]
  apply gridOf_congr
  intro r hr c hc
  have hx := h r hr c hc
  rwa [csr_cell X hr hc] at hx

theorem tolFilter_idem (S : ℚ) :
    (if ZERO_TOL < |if ZERO_TOL < |S| then S else 0| then
      (if ZERO_TOL < |S| then S else 0) else 0) =
    if ZERO_TOL < |S| then S else 0 := by
  by_cases h : ZERO_TOL < |S|
  · rw [if_pos h, if_pos h]
  · rw [if_neg h, if_neg (by simp [ZERO_TOL_pos.not_lt])]

theorem tolF_of_cases {S : ℚ} (h : S = 0 ∨ ZERO_TOL < |S|) :
    (if ZERO_TOL < |S| then S else 0) = S := by
  rcases h with rfl | h
  · rw [if_neg (by simp [ZERO_TOL_pos.not_lt])]
  · rw [if_pos h]

theorem tolF_two {S : ℚ} (h : S = 0 ∨ ZERO_TOL < |S|) :
    (if ZERO_TOL < |S + S| then S + S else 0) = S * 2 := by
  rcases h with rfl | h
  · simp [ZERO_TOL_pos.not_lt]
  · have h2 : S + S = 2 * S := by ring
    have habs : |S + S| = 2 * |S| := by rw [h2, abs_mul, abs_two]
    rw [if_pos (by rw [habs]; nlinarith [abs_nonneg S]), h2, mul_comm]

theorem clean_keySum_cases {seg : List (ℕ × ℚ)} (hnd : (seg.map (·.1)).Nodup)
    (habove : ∀ p ∈ seg, ZERO_TOL < |p.2|) (c : ℕ) :
    keySum seg c = 0 ∨ ZERO_TOL < |keySum seg c| := by
  by_cases hm : c ∈ seg.map (·.1)
  · right
    have hmem := mem_pair_of_nodup hnd hm
    have := habove _ hmem
    simpa using this
  · left
    exact keySum_eq_zero_of_not_mem hm

theorem tripPairs_keys (l : List Trip) :
    (tripPairs l).map (·.1) = l.map fun t => t.2 := by
  rw [tripPairs, List.map_map]
  rfl

theorem tripsSum_cases {l : List Trip} (hnd : (l.map fun t => t.2).Nodup)
    (habove : ∀ t ∈ l, ZERO_TOL < |t.1|) (r c : ℕ) :
    tripsSum l r c = 0 ∨ ZERO_TOL < |tripsSum l r c| := by
  rw [tripsSum_eq_keySum]
  by_cases hm : (r, c) ∈ (tripPairs l).map (·.1)
  · right
    have hnd' : ((tripPairs l).map (·.1)).Nodup := by rwa [tripPairs_keys]
    have hmem := mem_pair_of_nodup hnd' hm
    rcases List.mem_map.1 hmem with ⟨t, ht, hte⟩
    have hv : t.1 = keySum (tripPairs l) (r, c) := congrArg (·.2) hte
    rw [← hv]
    exact habove t ht
  · left
    exact keySum_eq_zero_of_not_mem hm

theorem cooAddImpl_shape (A : COOMat) (o : List Trip) :
    (cooAddImpl A o).shape = A.shape := by
  simp only [cooAddImpl]
  split
  · rfl
  · rfl

theorem coo_mulImpl_shape (M : COOMat) (s : ℚ) : (M.mulImpl s).shape = M.shape := by
  unfold COOMat.mulImpl
  split
  · rfl
  · rfl

theorem csr_mulImpl_shape (M : CSRMat) (s : ℚ) : (M.mulImpl s).shape = M.shape := by
  unfold CSRMat.mulImpl
  split
  · rfl
  · rfl

theorem csc_mulImpl_shape (P : CSCMat) (s : ℚ) : (P.mulImpl s).shape = P.shape := by
  unfold CSCMat.mulImpl
  split
  · rfl
  · rfl

/-- C2 (amended): transposing twice and densifying equals densifying directly
for every COOMatrix; for CSRMatrix/CSCMatrix it holds whenever every segment
has pairwise-distinct secondary indices and every stored value exceeds the
zero tolerance `1e-12` in magnitude (the conversion round trip sums duplicate
positions and drops values at or below the tolerance, so raw-constructed
matrices violating either condition break the involution). -/
theorem c2_transpose_involution :
    (∀ M : COOMat,
      SpMat.toDense (spTranspose (spTranspose (.coo M))) =
        SpMat.toDense (.coo M)) ∧
    (∀ M : CSRMat, M.Clean →
      SpMat.toDense (spTranspose (spTranspose (.csr M))) =
        SpMat.toDense (.csr M)) ∧
    (∀ P : CSCMat, P.Clean →
      SpMat.toDense (spTranspose (spTranspose (.csc P))) =
        SpMat.toDense (.csc P)) := by
  refine ⟨fun M => rfl, fun M hclean => ?_, fun P hclean => ?_⟩
  · show (cooToCsr (cooToCsc M.toCoo.transpose).toCoo.transpose).toDense =
      M.toDense
    apply csr_toDense_congr
      (show (cooToCsr (cooToCsc M.toCoo.transpose).toCoo.transpose).shape =
        M.shape from rfl)
    intro r hr c hc
    have hr' : r < M.shape.1 := hr
    have hc' : c < M.shape.2 := hc
    have hS :
        tripsSum (cooToCsc M.toCoo.transpose).toCoo.transpose.trips r c =
          if r < M.shape.1 ∧ ZERO_TOL < |tripsSum M.toCoo.trips r c| then
            tripsSum M.toCoo.trips r c
          else 0 := by
      rw [transpose_trips, tripsSum_map_swap, cooToCsc_toCoo_tripsSum,
        transpose_trips, tripsSum_map_swap]
      rfl
    rw [cooToCsr_cell _ hr' hc', hS,
      if_congr (and_iff_right hr') rfl rfl, tolFilter_idem,
      csr_toCoo_tripsSum, if_pos hr', csr_cell M hr' hc',
      ovw_eq_keySum_of_nodup (hclean r hr').1]
    exact tolF_of_cases
      (clean_keySum_cases (hclean r hr').1 (hclean r hr').2 c)
  · show (cooToCsc (cooToCsr P.toCoo.transpose).toCoo.transpose).toDense =
      P.toDense
    apply csc_toDense_congr
      (show (cooToCsc (cooToCsr P.toCoo.transpose).toCoo.transpose).shape =
        P.shape from rfl)
    intro r hr c hc
    have hr' : r < P.shape.1 := hr
    have hc' : c < P.shape.2 := hc
    have hS :
        tripsSum (cooToCsr P.toCoo.transpose).toCoo.transpose.trips r c =
          if c < P.shape.2 ∧ ZERO_TOL < |tripsSum P.toCoo.trips r c| then
            tripsSum P.toCoo.trips r c
          else 0 := by
      rw [transpose_trips, tripsSum_map_swap, cooToCsr_toCoo_tripsSum,
        transpose_trips, tripsSum_map_swap]
      rfl
    rw [cooToCsc_cell _ hr' hc', hS,
      if_congr (and_iff_right hc') rfl rfl, tolFilter_idem,
      csc_toCoo_tripsSum, if_pos hc', csc_cell P hr' hc',
      ovw_eq_keySum_of_nodup (hclean c hc').1]
    exact tolF_of_cases
      (clean_keySum_cases (hclean c hc').1 (hclean c hc').2 r)

theorem map_fst_scale (seg : List (ℕ × ℚ)) (s : ℚ) :
    ((seg.map fun p => (p.1, p.2 * s)).map (·.1)) = seg.map (·.1) := by
  rw [List.map_map]
  rfl

/-- C3 (amended): `M.add(M).to_dense()` equals `M.scalar_multiply(2).to_dense()`
for every COOMatrix whose triplets have pairwise-distinct `(row, col)`
positions and above-tolerance values, and for every CSRMatrix/CSCMatrix whose
segments are duplicate-free with above-tolerance values.  (A stored value at
or below `1e-12`, or duplicate positions, break the identity because the add
kernel noise-eliminates summed cells while scalar multiplication either skips
elimination (CSR/CSC) or eliminates individual triplets (COO).) -/
theorem c3_add_self_eq_double :
    (∀ M : COOMat, (M.trips.map fun t => t.2).Nodup →
      (∀ t ∈ M.trips, ZERO_TOL < |t.1|) →
      (spAdd (.coo M) (.coo M)).map SpMat.toDense =
        some (SpMat.toDense (spMul (.coo M) 2))) ∧
    (∀ M : CSRMat, M.Clean →
      (spAdd (.csr M) (.csr M)).map SpMat.toDense =
        some (SpMat.toDense (spMul (.csr M) 2))) ∧
    (∀ P : CSCMat, P.Clean →
      (spAdd (.csc P) (.csc P)).map SpMat.toDense =
        some (SpMat.toDense (spMul (.csc P) 2))) := by
  refine ⟨fun M hnd habove => ?_, fun M hclean => ?_, fun P hclean => ?_⟩
  · rw [spAdd, if_neg (by simp)]
    show some (cooAddImpl M M.trips).toDense = some (M.mulImpl 2).toDense
    apply congrArg some
    apply coo_toDense_congr
      ((cooAddImpl_shape M M.trips).trans (coo_mulImpl_shape M 2).symm)
    intro r hr c hc
    rw [addCell, tripsSum_append]
    have htrips : (M.mulImpl 2).trips = M.trips.map fun t => (t.1 * 2, t.2) := by
      rw [mulImpl_trips_of_ne M (by norm_num)]
      apply List.filter_eq_self.2
      intro a ha
      rcases List.mem_map.1 ha with ⟨t, ht, rfl⟩
      have hta := habove t ht
      simp only [decide_eq_true_eq]
      show ZERO_TOL < |t.1 * 2|
      rw [abs_mul, abs_two]
      nlinarith [ZERO_TOL_pos]
    rw [htrips, tripsSum_map_scale]
    exact tolF_two (tripsSum_cases hnd habove r c)
  · rw [spAdd, if_neg (by simp)]
    show Option.map SpMat.toDense
        (if M.toCoo.shape ≠ (cooOf (.csr M)).shape then none
          else some (SpMat.csr (cooToCsr (cooAddImpl M.toCoo (cooOf (.csr M)).trips)))) =
      some (SpMat.toDense (spMul (.csr M) 2))
    rw [if_neg (by simp [cooOf])]
    show some (cooToCsr (cooAddImpl M.toCoo M.toCoo.trips)).toDense =
      some (M.mulImpl 2).toDense
    apply congrArg some
    apply csr_toDense_congr
      ((show (cooToCsr (cooAddImpl M.toCoo M.toCoo.trips)).shape =
          (cooAddImpl M.toCoo M.toCoo.trips).shape from rfl).trans
        ((cooAddImpl_shape M.toCoo M.toCoo.trips).trans
          (csr_mulImpl_shape M 2).symm))
    intro r hr c hc
    have hrR : r < (cooAddImpl M.toCoo M.toCoo.trips).shape.1 := hr
    have hcR : c < (cooAddImpl M.toCoo M.toCoo.trips).shape.2 := hc
    have hr' : r < M.shape.1 := by rwa [cooAddImpl_shape] at hrR
    have hc' : c < M.shape.2 := by rwa [cooAddImpl_shape] at hcR
    rw [cooToCsr_cell _ hrR hcR, addCell, tripsSum_append, tolFilter_idem,
      csr_toCoo_tripsSum, if_pos hr',
      csr_cell (M.mulImpl 2) ((csr_mulImpl_shape M 2).symm ▸ hr')
        ((csr_mulImpl_shape M 2).symm ▸ hc'),
      csr_mul_seg M (by norm_num) r,
      ovw_eq_keySum_of_nodup (by rw [map_fst_scale]; exact (hclean r hr').1),
      keySum_scale_snd]
    exact tolF_two (clean_keySum_cases (hclean r hr').1 (hclean r hr').2 c)
  · rw [spAdd, if_neg (by simp)]
    show Option.map SpMat.toDense
        (if P.toCoo.shape ≠ (cooOf (.csc P)).shape then none
          else some (SpMat.csc (cooToCsc (cooAddImpl P.toCoo (cooOf (.csc P)).trips)))) =
      some (SpMat.toDense (spMul (.csc P) 2))
    rw [if_neg (by simp [cooOf])]
    show some (cooToCsc (cooAddImpl P.toCoo P.toCoo.trips)).toDense =
      some (P.mulImpl 2).toDense
    apply congrArg some
    apply csc_toDense_congr
      ((show (cooToCsc (cooAddImpl P.toCoo P.toCoo.trips)).shape =
          (cooAddImpl P.toCoo P.toCoo.trips).shape from rfl).trans
        ((cooAddImpl_shape P.toCoo P.toCoo.trips).trans
          (csc_mulImpl_shape P 2).symm))
    intro r hr c hc
    have hrR : r < (cooAddImpl P.toCoo P.toCoo.trips).shape.1 := hr
    have hcR : c < (cooAddImpl P.toCoo P.toCoo.trips).shape.2 := hc
    have hr' : r < P.shape.1 := by rwa [cooAddImpl_shape] at hrR
    have hc' : c < P.shape.2 := by rwa [cooAddImpl_shape] at hcR
    rw [cooToCsc_cell _ hrR hcR, addCell, tripsSum_append, tolFilter_idem,
      csc_toCoo_tripsSum, if_pos hc',
      csc_cell (P.mulImpl 2) ((csc_mulImpl_shape P 2).symm ▸ hr')
        ((csc_mulImpl_shape P 2).symm ▸ hc'),
      csc_mul_seg P (by norm_num) c,
      ovw_eq_keySum_of_nodup (by rw [map_fst_scale]; exact (hclean c hc').1),
      keySum_scale_snd]
    exact tolF_two (clean_keySum_cases (hclean c hc').1 (hclean c hc').2 r)

theorem occurs_csrOrient (T : List Trip) (i c : ℕ) :
    c ∈ dKeys (segDict (T.map fun t => (t.2.1, t.2.2, t.1)) i) ↔
      ∃ t ∈ T, t.2 = (i, c) := by
  rw [mem_dKeys_segDict]
  constructor
  · rintro ⟨u, hu, h1, h2⟩
    rcases List.mem_map.1 hu with ⟨t, ht, rfl⟩
    exact ⟨t, ht, Prod.ext_iff.2 ⟨h1, h2⟩⟩
  · rintro ⟨t, ht, hte⟩
    exact ⟨(t.2.1, t.2.2, t.1), List.mem_map.2 ⟨t, ht, rfl⟩,
      (Prod.ext_iff.1 hte).1, (Prod.ext_iff.1 hte).2⟩

theorem occurs_cscOrient (T : List Trip) (j r : ℕ) :
    r ∈ dKeys (segDict (T.map fun t => (t.2.2, t.2.1, t.1)) j) ↔
      ∃ t ∈ T, t.2 = (r, j) := by
  rw [mem_dKeys_segDict]
  constructor
  · rintro ⟨u, hu, h1, h2⟩
    rcases List.mem_map.1 hu with ⟨t, ht, rfl⟩
    exact ⟨t, ht, Prod.ext_iff.2 ⟨h2, h1⟩⟩
  · rintro ⟨t, ht, hte⟩
    exact ⟨(t.2.2, t.2.1, t.1), List.mem_map.2 ⟨t, ht, rfl⟩,
      (Prod.ext_iff.1 hte).2, (Prod.ext_iff.1 hte).1⟩

/-- C6: a COO matrix with at least two triplets sharing a `(row, col)` pair
converts to CSR/CSC by summing all values per pair, dropping the pair when the
summed value is within the tolerance of zero, and sorting each segment's
retained secondary indices ascending — so each segment's indices are strictly
increasing and at most one stored entry per pair appears, and every stored
entry carries exactly the accumulated sum, which exceeds the tolerance. -/
theorem c6_duplicate_accumulation (M : COOMat) (_hvalid : M.Valid)
    (_hdup : ¬(M.trips.map fun t => t.2).Nodup) :
    (∀ i < M.shape.1,
      (((cooToCsr M).seg i).map (·.1)).Sorted (· < ·) ∧
      (((cooToCsr M).seg i).map (·.1)).Nodup ∧
      ∀ c v, ((c, v) ∈ (cooToCsr M).seg i ↔
        (∃ t ∈ M.trips, t.2 = (i, c)) ∧ v = tripsSum M.trips i c ∧
          ZERO_TOL < |v|)) ∧
    (∀ j < M.shape.2,
      (((cooToCsc M).seg j).map (·.1)).Sorted (· < ·) ∧
      (((cooToCsc M).seg j).map (·.1)).Nodup ∧
      ∀ r v, ((r, v) ∈ (cooToCsc M).seg j ↔
        (∃ t ∈ M.trips, t.2 = (r, j)) ∧ v = tripsSum M.trips r j ∧
          ZERO_TOL < |v|)) := by
  constructor
  · intro i hi
    rw [cooToCsr_seg M hi]
    refine ⟨sorted_keys_segOut _ _, nodup_keys_segOut _ _, fun c v => ?_⟩
    rw [mem_segOut, occurs_csrOrient, dGetD_segDict_csrOrient]
  · intro j hj
    rw [cooToCsc_seg M hj]
    refine ⟨sorted_keys_segOut _ _, nodup_keys_segOut _ _, fun r v => ?_⟩
    rw [mem_segOut, occurs_cscOrient, dGetD_segDict_cscOrient]

/-! ### Dense round trips -/

theorem filterMap_grid_row (n : ℕ) (P : ℕ → Prop) [DecidablePred P]
    (f : ℕ → ℚ) (i : ℕ) :
    ((List.range n).filterMap fun j => if P j then some (f j, i, j) else none) =
      ((List.range n).filterMap fun j => if P j then some (j, f j) else none).map
        fun p => (p.2, i, p.1) := by
  rw [List.map_filterMap]
  congr 1
  funext j
  by_cases h : P j <;> simp [h]

theorem tripsSum_gridTrips (m n : ℕ) (P : ℕ → ℕ → Prop)
    [∀ i j, Decidable (P i j)] (f : ℕ → ℕ → ℚ) (r c : ℕ) :
    tripsSum ((List.range m).flatMap fun i =>
        (List.range n).filterMap fun j =>
          if P i j then some (f i j, i, j) else none) r c =
      if r < m ∧ c < n ∧ P r c then f r c else 0 := by
  have hrw : ∀ i : ℕ,
      ((List.range n).filterMap fun j => if P i j then some (f i j, i, j) else none) =
      ((List.range n).filterMap fun j => if P i j then some (j, f i j) else none).map
        fun p => (p.2, i, p.1) := fun i => filterMap_grid_row n (P i) (f i) i
  simp only [hrw]
  rw [tripsSum_flatMapRow]
  by_cases hr : r < m
  · rw [if_pos hr, keySum_guardMap (List.nodup_range n) (P r) (f r) c]
    exact if_congr (by simp [List.mem_range, hr]) rfl rfl
  · rw [if_neg hr, if_neg (fun hh => hr hh.1)]

theorem keys_guardMap (l : List ℕ) (P : ℕ → Prop) [DecidablePred P]
    (f : ℕ → ℚ) :
    ((l.filterMap fun j => if P j then some (j, f j) else none).map (·.1)) =
      l.filter fun j => P j := by
  rw [List.map_filterMap]
  have hfn : ∀ a, ((if P a then some (a, f a) else none).map fun x => x.1) =
      if P a then some a else none := by
    intro a
    by_cases h : P a <;> simp [h]
  simp only [hfn]
  exact filterMap_guard _ _

/-- C7: `to_dense(from_dense(D)) == D` in each of the three formats, for every
rectangular dense matrix whose entries are each exactly zero or of magnitude
strictly above the zero tolerance. -/
theorem c7_dense_roundtrip (D : DenseMat)
    (hrect : ∀ row ∈ D, row.length = (D.headD []).length)
    (hent : ∀ row ∈ D, ∀ x ∈ row, x = 0 ∨ ZERO_TOL < |x|) :
    (cooFromDense D).toDense = D ∧ (csrFromDense D).toDense = D ∧
      (cscFromDense D).toDense = D := by
  rcases D with _ | ⟨row0, rest⟩
  · exact ⟨rfl, rfl, rfl⟩
  set D := row0 :: rest with hD
  have hent' : ∀ r < D.length, ∀ c < (D.headD []).length,
      getEntry D r c = 0 ∨ ZERO_TOL < |getEntry D r c| := by
    intro r hr c hc
    have hrow : D[r].length = (D.headD []).length :=
      hrect _ (List.getElem_mem hr)
    have hcr : c < D[r].length := by omega
    have hx : getEntry D r c = D[r][c] := by
      rw [getEntry, List.getD_eq_getElem _ _ hr, List.getD_eq_getElem _ _ hcr]
    rw [hx]
    exact hent _ (List.getElem_mem hr) _ (List.getElem_mem hcr)
  refine ⟨?_, ?_, ?_⟩
  · rw [show cooFromDense D = cooOfTrips
        ((List.range D.length).flatMap fun i =>
          (List.range (D.headD []).length).filterMap fun j =>
            if getEntry D i j ≠ 0 then some (getEntry D i j, i, j) else none)
        (D.length, (D.headD []).length) from rfl, COOMat.toDense]
    apply gridOf_eq_list rfl hrect
    intro r hr c hc
    rw [cooOfTrips_trips, tripsSum_gridTrips]
    rcases hent' r hr c hc with h0 | habove
    · rw [h0, if_neg (by simp)]
    · rw [if_pos ⟨hr, hc, fun h0 => by
        rw [h0] at habove
        exact absurd habove (by simp [ZERO_TOL_pos.not_lt])⟩]
  · rw [show csrFromDense D = CSRMat.mk
        (segsData ((List.range D.length).map fun i =>
          (List.range (D.headD []).length).filterMap fun j =>
            if ZERO_TOL < |getEntry D i j| then some (j, getEntry D i j) else none))
        (segsIndices ((List.range D.length).map fun i =>
          (List.range (D.headD []).length).filterMap fun j =>
            if ZERO_TOL < |getEntry D i j| then some (j, getEntry D i j) else none))
        (segsIndptr ((List.range D.length).map fun i =>
          (List.range (D.headD []).length).filterMap fun j =>
            if ZERO_TOL < |getEntry D i j| then some (j, getEntry D i j) else none))
        (D.length, (D.headD []).length) from rfl, CSRMat.toDense]
    apply gridOf_eq_list rfl hrect
    intro r hr c hc
    rw [csr_seg_packed _ _ (by simpa using hr), getD_map_range hr,
      ovw_eq_keySum_of_nodup
        (by rw [keys_guardMap]; exact (List.nodup_range _).filter _),
      keySum_guardMap (List.nodup_range _) _ _ c]
    rcases hent' r hr c hc with h0 | habove
    · rw [h0, if_neg (by simp [ZERO_TOL_pos.not_lt])]
    · rw [if_pos ⟨List.mem_range.2 hc, habove⟩]
  · rw [show cscFromDense D = CSCMat.mk
        (segsData ((List.range (D.headD []).length).map fun j =>
          (List.range D.length).filterMap fun i =>
            if ZERO_TOL < |getEntry D i j| then some (i, getEntry D i j) else none))
        (segsIndices ((List.range (D.headD []).length).map fun j =>
          (List.range D.length).filterMap fun i =>
            if ZERO_TOL < |getEntry D i j| then some (i, getEntry D i j) else none))
        (segsIndptr ((List.range (D.headD []).length).map fun j =>
          (List.range D.length).filterMap fun i =>
            if ZERO_TOL < |getEntry D i j| then some (i, getEntry D i j) else none))
        (D.length, (D.headD []).length) from rfl, CSCMat.toDense]
    apply gridOf_eq_list rfl hrect
    intro r hr c hc
    rw [csc_seg_packed _ _ (by simpa using hc), getD_map_range hc,
      ovw_eq_keySum_of_nodup
        (by rw [keys_guardMap]; exact (List.nodup_range _).filter _),
      keySum_guardMap (List.nodup_range _) _ _ r]
    rcases hent' r hr c hc with h0 | habove
    · rw [h0, if_neg (by simp [ZERO_TOL_pos.not_lt])]
    · rw [if_pos ⟨List.mem_range.2 hr, habove⟩]

theorem map_mul_zero (l : List ℚ) : l.map (· * 0) = List.replicate l.length 0 := by
  induction l with
  | nil => rfl
  | cons a l ih => simp [List.replicate_succ, ih]

/-- C8: scalar multiplication by the exact scalar `0` is asymmetric across
formats: a COO result keeps one triplet per original triplet, each with value
zero and with no noise elimination, while CSR/CSC short-circuit to empty
value/index arrays with an all-zero pointer array of length `rows + 1`
(resp. `cols + 1`); for a non-zero scalar COO rescales and noise-eliminates
while CSR/CSC merely rescale their value arrays. -/
theorem c8_zero_scalar_asymmetry (M : COOMat) (N : CSRMat) (P : CSCMat)
    {s : ℚ} (hs : s ≠ 0) :
    ((M.mulImpl 0).data = List.replicate M.data.length 0 ∧
      (M.mulImpl 0).row = M.row ∧ (M.mulImpl 0).col = M.col ∧
      (M.mulImpl 0).shape = M.shape) ∧
    N.mulImpl 0 = ⟨[], [], List.replicate (N.shape.1 + 1) 0, N.shape⟩ ∧
    P.mulImpl 0 = ⟨[], [], List.replicate (P.shape.2 + 1) 0, P.shape⟩ ∧
    (M.mulImpl s).trips =
      ((M.trips.map fun t => (t.1 * s, t.2)).filter fun t => ZERO_TOL < |t.1|) ∧
    N.mulImpl s = ⟨N.data.map (· * s), N.indices, N.indptr, N.shape⟩ ∧
    P.mulImpl s = ⟨P.data.map (· * s), P.indices, P.indptr, P.shape⟩ := by
  refine ⟨⟨?_, ?_, ?_, ?_⟩, ?_, ?_, ?_, ?_, ?_⟩
  · rw [mulImpl_zero]
    exact map_mul_zero M.data
  · rw [mulImpl_zero]
  · rw [mulImpl_zero]
  · rw [mulImpl_zero]
  · rw [CSRMat.mulImpl, if_pos rfl]
  · rw [CSCMat.mulImpl, if_pos rfl]
  · exact mulImpl_trips_of_ne M hs
  · rw [CSRMat.mulImpl, if_neg hs]
  · rw [CSCMat.mulImpl, if_neg hs]

/-- C9: raw CSR/CSC construction accepts duplicate or unsorted secondary
indices inside a segment (only bounds, pointer length, pointer monotonicity
and terminal-pointer agreement are validated), and `to_dense` assigns each
stored value by overwrite, so the last stored value for a duplicated index
wins — unlike `COOMatrix.to_dense`, which sums duplicates. -/
theorem c9_overwrite_semantics :
    (∀ M : CSRMat, M.Valid → ∀ r < M.shape.1, ∀ c < M.shape.2,
      getEntry M.toDense r c =
        ((((M.seg r).filter fun p => p.1 = c).map (·.2)).getLast?).getD 0) ∧
    (∀ P : CSCMat, P.Valid → ∀ r < P.shape.1, ∀ c < P.shape.2,
      getEntry P.toDense r c =
        ((((P.seg c).filter fun p => p.1 = r).map (·.2)).getLast?).getD 0) ∧
    CSRMat.Valid ⟨[1, 2], [0, 0], [0, 2], (1, 1)⟩ ∧
    CSRMat.Valid ⟨[1, 2], [1, 0], [0, 2], (1, 2)⟩ ∧
    getEntry (CSRMat.toDense ⟨[1, 2], [0, 0], [0, 2], (1, 1)⟩) 0 0 = 2 ∧
    getEntry (COOMat.toDense ⟨[1, 2], [0, 0], [0, 0], (1, 1)⟩) 0 0 = 3 := by
  refine ⟨?_, ?_, ?_, ?_, ?_, ?_⟩
  · intro M _ r hr c hc
    rw [csr_cell M hr hc, ovw_eq_lastWrite]
  · intro P _ r hr c hc
    rw [csc_cell P hr hc, ovw_eq_lastWrite]
  · refine ⟨by decide, by decide, by decide, ?_, by decide⟩
    intro c hcm
    fin_cases hcm <;> decide
  · refine ⟨by decide, by decide, by decide, ?_, by decide⟩
    intro c hcm
    fin_cases hcm <;> decide
  · norm_num [CSRMat.toDense, gridOf, getEntry, CSRMat.seg, List.range']
  · norm_num [COOMat.toDense, gridOf, getEntry, COOMat.trips, tripsSum]

/-! ### Delegation structure of the compressed kernels -/

/-- C1 (amended): `add` on a CSR/CSC matrix converts both operands to COO,
delegates to the COO kernel and converts the result back to the invoking
layout, so CSR add returns a CSRMatrix and CSC add a CSCMatrix whenever the
operand's COO conversion preserves its shape; that holds for every compressed
operand (`_to_coo` keeps the shape) but fails for a COO operand of shape
`(0, k)` with `k ≠ 0`, whose densify-and-rebuild conversion collapses the
shape to `(0, 0)` so that the COO kernel's internal shape recheck raises
`ValueError` instead of returning.  `matmul` also converts both operands to
COO and delegates, but returns the COO kernel's result directly, without
converting back to the invoking layout. -/
theorem c1_delegation :
    (∀ (M : CSRMat) (B : SpMat), M.shape = B.shape →
      (cooOf B).shape = B.shape →
      spAdd (.csr M) B =
        some (.csr (cooToCsr (cooAddImpl M.toCoo (cooOf B).trips)))) ∧
    (∀ (M : CSRMat) (B : SpMat), M.shape.2 = B.shape.1 →
      spMatmul (.csr M) B = some (.coo (cooMatmulImpl M.toCoo (cooOf B)))) ∧
    (∀ (P : CSCMat) (B : SpMat), P.shape = B.shape →
      (cooOf B).shape = B.shape →
      spAdd (.csc P) B =
        some (.csc (cooToCsc (cooAddImpl P.toCoo (cooOf B).trips)))) ∧
    (∀ (P : CSCMat) (B : SpMat), P.shape.2 = B.shape.1 →
      spMatmul (.csc P) B = some (.coo (cooMatmulImpl P.toCoo (cooOf B)))) ∧
    (∀ N : CSRMat, (cooOf (.csr N)).shape = N.shape) ∧
    (∀ N : CSCMat, (cooOf (.csc N)).shape = N.shape) ∧
    (∀ (M : CSRMat) (N : COOMat), M.shape = N.shape →
      N.shape.1 = 0 → N.shape.2 ≠ 0 → spAdd (.csr M) (.coo N) = none) ∧
    (∀ (P : CSCMat) (N : COOMat), P.shape = N.shape →
      N.shape.1 = 0 → N.shape.2 ≠ 0 → spAdd (.csc P) (.coo N) = none) := by
  refine ⟨fun M B h h2 => ?_, fun M B h => ?_, fun P B h h2 => ?_,
    fun P B h => ?_, fun N => rfl, fun N => rfl,
    fun M N h h1 h2 => ?_, fun P N h h1 h2 => ?_⟩
  · rw [spAdd, if_neg (by simp [SpMat.shape, h])]
    show (if M.toCoo.shape ≠ (cooOf B).shape then none
      else some (SpMat.csr (cooToCsr (cooAddImpl M.toCoo (cooOf B).trips)))) =
      some (.csr (cooToCsr (cooAddImpl M.toCoo (cooOf B).trips)))
    rw [if_neg (by
      simp [show M.toCoo.shape = M.shape from rfl, h, h2])]
  · rw [spMatmul, if_neg (by simp [SpMat.shape, h])]
  · rw [spAdd, if_neg (by simp [SpMat.shape, h])]
    show (if P.toCoo.shape ≠ (cooOf B).shape then none
      else some (SpMat.csc (cooToCsc (cooAddImpl P.toCoo (cooOf B).trips)))) =
      some (.csc (cooToCsc (cooAddImpl P.toCoo (cooOf B).trips)))
    rw [if_neg (by
      simp [show P.toCoo.shape = P.shape from rfl, h, h2])]
  · rw [spMatmul, if_neg (by simp [SpMat.shape, h])]
  · have hD : N.toDense = [] := by
      unfold COOMat.toDense gridOf
      rw [h1]
      rfl
    have hcoll : (cooOf (.coo N)).shape = (0, 0) := by
      show (cooFromDense N.toDense).shape = (0, 0)
      rw [hD]
      rfl
    have hne : M.toCoo.shape ≠ (cooOf (.coo N)).shape := by
      rw [hcoll, show M.toCoo.shape = M.shape from rfl, h]
      intro hc
      exact h2 (congrArg Prod.snd hc)
    rw [spAdd, if_neg (by simp [SpMat.shape, h])]
    show (if M.toCoo.shape ≠ (cooOf (.coo N)).shape then none
      else some (SpMat.csr
        (cooToCsr (cooAddImpl M.toCoo (cooOf (.coo N)).trips)))) = none
    rw [if_pos hne]
  · have hD : N.toDense = [] := by
      unfold COOMat.toDense gridOf
      rw [h1]
      rfl
    have hcoll : (cooOf (.coo N)).shape = (0, 0) := by
      show (cooFromDense N.toDense).shape = (0, 0)
      rw [hD]
      rfl
    have hne : P.toCoo.shape ≠ (cooOf (.coo N)).shape := by
      rw [hcoll, show P.toCoo.shape = P.shape from rfl, h]
      intro hc
      exact h2 (congrArg Prod.snd hc)
    rw [spAdd, if_neg (by simp [SpMat.shape, h])]
    show (if P.toCoo.shape ≠ (cooOf (.coo N)).shape then none
      else some (SpMat.csc
        (cooToCsc (cooAddImpl P.toCoo (cooOf (.coo N)).trips)))) = none
    rw [if_pos hne]

/-- C1 counterexample: `CSRMatrix @ CSRMatrix` does not return a CSRMatrix —
the matmul result stays in COO layout. -/
theorem c1_matmul_returns_coo_cex :
    ¬∃ C : CSRMat,
      spMatmul (.csr (csrFromDense [[1]])) (.csr (csrFromDense [[1]])) =
        some (.csr C) := by
  rintro ⟨C, hC⟩
  rw [spMatmul, if_neg (by decide)] at hC
  exact SpMat.noConfusion (Option.some.inj hC)

/-! ### The LU factorization loop -/

theorem luLoop_succ (dA : ℕ → ℕ → ℚ) (n k : ℕ) :
    luLoop dA n (k + 1) = luStep dA n (luLoop dA n k) k := by
  rw [luLoop, List.range_succ, List.foldl_append, List.foldl_cons,
    List.foldl_nil]
  rfl

theorem luLoop_eq_luRun (dA : ℕ → ℕ → ℚ) (n : ℕ) (k : ℕ)
    (h : ∀ j < k, ¬(j + 1 < n ∧ |(luRun dA n (j + 1)).2 j j| < ZERO_TOL)) :
    luLoop dA n k = some (luRun dA n k) := by
  induction k with
  | zero => rfl
  | succ k ih =>
    rw [luLoop_succ, ih (fun j hj => h j (by omega)), luStep]
    show (if k + 1 < n ∧
        |uRowUpdate dA n k (luRun dA n k).1 (luRun dA n k).2 k k| < ZERO_TOL then
          none
        else some (lColUpdate dA n k (luRun dA n k).1
          (uRowUpdate dA n k (luRun dA n k).1 (luRun dA n k).2),
          uRowUpdate dA n k (luRun dA n k).1 (luRun dA n k).2)) =
      some (luRun dA n (k + 1))
    have hk : ¬(k + 1 < n ∧
        |uRowUpdate dA n k (luRun dA n k).1 (luRun dA n k).2 k k| < ZERO_TOL) :=
      h k (by omega)
    rw [if_neg hk]
    rfl

theorem luLoop_none_iff (dA : ℕ → ℕ → ℚ) (n : ℕ) (k : ℕ) :
    luLoop dA n k = none ↔
      ∃ j, j < k ∧ j + 1 < n ∧ |(luRun dA n (j + 1)).2 j j| < ZERO_TOL := by
  induction k with
  | zero =>
    constructor
    · intro h
      exact absurd h (by rw [luLoop]; simp)
    · rintro ⟨j, hj, -⟩
      omega
  | succ k ih =>
    rw [luLoop_succ]
    constructor
    · intro hnone
      by_cases hex : ∃ j, j < k ∧ j + 1 < n ∧
          |(luRun dA n (j + 1)).2 j j| < ZERO_TOL
      · rcases hex with ⟨j, hj, h2, h3⟩
        exact ⟨j, by omega, h2, h3⟩
      · rw [luLoop_eq_luRun dA n k
          (fun j hj hc => hex ⟨j, hj, hc.1, hc.2⟩), luStep] at hnone
        by_cases hc : k + 1 < n ∧
            |uRowUpdate dA n k (luRun dA n k).1 (luRun dA n k).2 k k| < ZERO_TOL
        · exact ⟨k, by omega, hc.1, hc.2⟩
        · rw [show ((some (luRun dA n k)).bind fun s =>
              if k + 1 < n ∧ |uRowUpdate dA n k s.1 s.2 k k| < ZERO_TOL then none
              else some (lColUpdate dA n k s.1 (uRowUpdate dA n k s.1 s.2),
                uRowUpdate dA n k s.1 s.2)) =
            if k + 1 < n ∧
                |uRowUpdate dA n k (luRun dA n k).1 (luRun dA n k).2 k k| <
                  ZERO_TOL then none
            else some (lColUpdate dA n k (luRun dA n k).1
              (uRowUpdate dA n k (luRun dA n k).1 (luRun dA n k).2),
              uRowUpdate dA n k (luRun dA n k).1 (luRun dA n k).2) from rfl,
            if_neg hc] at hnone
          cases hnone
    · rintro ⟨j, hj, h2, h3⟩
      by_cases hjk : j < k
      · rw [ih.2 ⟨j, hjk, h2, h3⟩]
        rfl
      · have hjek : j = k := by omega
        subst hjek
        by_cases hex : ∃ j', j' < j ∧ j' + 1 < n ∧
            |(luRun dA n (j' + 1)).2 j' j'| < ZERO_TOL
        · rw [ih.2 hex]
          rfl
        · rw [luLoop_eq_luRun dA n j
            (fun j' hj' hc => hex ⟨j', hj', hc.1, hc.2⟩), luStep]
          show (if j + 1 < n ∧
              |uRowUpdate dA n j (luRun dA n j).1 (luRun dA n j).2 j j| <
                ZERO_TOL then none
            else some (lColUpdate dA n j (luRun dA n j).1
              (uRowUpdate dA n j (luRun dA n j).1 (luRun dA n j).2),
              uRowUpdate dA n j (luRun dA n j).1 (luRun dA n j).2)) = none
          rw [if_pos ⟨h2, h3⟩]

theorem bwdRun_none (Ud : ℕ → ℕ → ℚ) (y : ℕ → ℚ) (n : ℕ) :
    ∀ k, k ≤ n → (∃ i, n - k ≤ i ∧ i < n ∧ |Ud i i| < ZERO_TOL) →
      bwdRun Ud y n k = none := by
  intro k
  induction k with
  | zero =>
    rintro - ⟨i, h1, h2, -⟩
    omega
  | succ k ih =>
    rintro hk ⟨i, h1, h2, h3⟩
    rw [bwdRun]
    by_cases hik : n - k ≤ i
    · rw [ih (by omega) ⟨i, hik, h2, h3⟩]
      rfl
    · have hieq : i = n - 1 - k := by omega
      subst hieq
      cases hbk : bwdRun Ud y n k with
      | none => rfl
      | some x =>
        show (some x).bind _ = none
        rw [Option.some_bind, if_pos h3]

/-- C4 (amended): `lu_decomposition` signals mathematical non-existence only
through the absent result: it returns `None` exactly when the input is
non-square or when some pivot `U[i][i]` with `|U[i][i]| < 1e-12` arises at a
step `i` that still has rows below it (`i + 1 < n`); a tiny pivot in the very
last diagonal position is not checked and a present factorization is
returned.  `solve_SLAE_lu` returns `None` whenever the factorization is
absent, and — for a right-hand side `b` no longer than the matrix dimension —
whenever some densified `U` diagonal entry `U[i][i]` with `i < len(b)` has
magnitude below `1e-12` during back-substitution (a longer `b` instead makes
the source raise `IndexError` while indexing the dense factors, an outcome
outside the absent-result channel). -/
theorem c4_absence_signaling (A : CSCMat) (b : List ℚ) :
    (A.shape.1 ≠ A.shape.2 → lu_decomposition A = none) ∧
    (lu_decomposition A = none ↔
      A.shape.1 ≠ A.shape.2 ∨
        ∃ i, i + 1 < A.shape.1 ∧
          |(luRun (getEntry A.toDense) A.shape.1 (i + 1)).2 i i| < ZERO_TOL) ∧
    (lu_decomposition A = none → solve_SLAE_lu A b = none) ∧
    (∀ L U, lu_decomposition A = some (L, U) → b.length ≤ A.shape.1 →
      (∃ i < b.length, |getEntry U.toDense i i| < ZERO_TOL) →
      solve_SLAE_lu A b = none) := by
  refine ⟨fun h => ?_, ?_, fun h => ?_, fun L U hLU hblen hdiag => ?_⟩
  · rw [lu_decomposition, if_pos h]
  · by_cases hsq : A.shape.1 ≠ A.shape.2
    · rw [lu_decomposition, if_pos hsq]
      simp [hsq]
    · rw [lu_decomposition, if_neg hsq, Option.map_eq_none', luLoop_none_iff]
      constructor
      · rintro ⟨j, hj, h2, h3⟩
        exact .inr ⟨j, h2, h3⟩
      · rintro (h | ⟨i, h2, h3⟩)
        · exact absurd h hsq
        · exact ⟨i, by omega, h2, h3⟩
  · rw [solve_SLAE_lu, h]
    rfl
  · rw [solve_SLAE_lu, hLU]
    rcases hdiag with ⟨i, hib, htol⟩
    show (bwdRun (getEntry U.toDense) _ b.length b.length).map _ = none
    rw [bwdRun_none (getEntry U.toDense) _ b.length b.length le_rfl
      ⟨i, by omega, hib, htol⟩]
    rfl

/-! ### Concrete evaluations -/

theorem range_one_eval : List.range 1 = [0] := by decide

theorem range_two_eval : List.range 2 = [0, 1] := by decide

/-- C5: for A = [[4,3],[6,3]] given as a CSCMatrix, the factorization
densifies to L = [[1,0],[1.5,1]] (unit diagonal) and U = [[4,3],[0,-1.5]],
and the determinant is -6. -/
theorem c5_concrete_lu :
    (lu_decomposition (cscFromDense [[4, 3], [6, 3]])).map
        (fun p => (p.1.toDense, p.2.toDense)) =
      some ([[1, 0], [3/2, 1]], [[4, 3], [0, -(3/2)]]) ∧
    find_det_with_lu (cscFromDense [[4, 3], [6, 3]]) = some (-6) := by
  have hlu : lu_decomposition (cscFromDense [[4, 3], [6, 3]]) =
      some (⟨[1, 3/2, 1], [0, 1, 1], [0, 2, 3], (2, 2)⟩,
        ⟨[4, 3, -3/2], [0, 0, 1], [0, 1, 3], (2, 2)⟩) := by
    norm_num [lu_decomposition, luLoop, luStep, uRowUpdate, lColUpdate, sumK,
      matOf, gridOf, getEntry, cscFromDense, CSCMat.toDense, CSCMat.seg,
      segsData, segsIndices, segsIndptr, range_one_eval, range_two_eval,
      List.range', ZERO_TOL, List.filterMap_cons, List.filterMap_nil,
      abs_of_pos, abs_neg]
    decide
  constructor
  · rw [hlu]
    norm_num [CSCMat.toDense, CSCMat.seg, gridOf, range_one_eval,
      range_two_eval, List.range']
  · rw [find_det_with_lu, hlu]
    norm_num [detGo, CSCMat.toDense, CSCMat.seg, gridOf, getEntry,
      range_one_eval, range_two_eval, List.range', UNDERFLOW_TOL]

/-- C10: the empty square CSC matrix of shape (0, 0) factors into two empty
(0, 0) CSC matrices (a present result, not absence), and its determinant is
exactly 1. -/
theorem c10_empty_lu :
    (cscFromDense ([] : DenseMat)).shape = (0, 0) ∧
    lu_decomposition (cscFromDense ([] : DenseMat)) =
      some (⟨[], [], [0], (0, 0)⟩, ⟨[], [], [0], (0, 0)⟩) ∧
    find_det_with_lu (cscFromDense ([] : DenseMat)) = some 1 :=
  ⟨rfl, rfl, rfl⟩

/-- C4 counterexample: A = [[0]] is square and its only pivot `U[0][0] = 0`
satisfies `|U[0][0]| < 1e-12` during the factorization, yet
`lu_decomposition` returns a present factorization (the final pivot is never
checked), contradicting the claim that a tiny pivot always yields `None`. -/
theorem c4_last_pivot_unchecked_cex :
    |(luRun (getEntry (cscFromDense [[0]]).toDense) 1 1).2 0 0| < ZERO_TOL ∧
    lu_decomposition (cscFromDense [[0]]) =
      some (⟨[1], [0], [0, 1], (1, 1)⟩, ⟨[], [], [0, 0], (1, 1)⟩) := by
  constructor
  · norm_num [luRun, uRowUpdate, lColUpdate, sumK, getEntry, cscFromDense,
      CSCMat.toDense, CSCMat.seg, gridOf, range_one_eval, List.range',
      ZERO_TOL, segsData, segsIndices, segsIndptr, List.filterMap_cons,
      List.filterMap_nil, abs_of_pos, abs_neg]
  · norm_num [lu_decomposition, luLoop, luStep, uRowUpdate, lColUpdate, sumK,
      matOf, gridOf, getEntry, cscFromDense, CSCMat.toDense, CSCMat.seg,
      segsData, segsIndices, segsIndptr, range_one_eval, List.range',
      ZERO_TOL, List.filterMap_cons, List.filterMap_nil, abs_of_pos, abs_neg]
    decide

theorem c4_witness :
    lu_decomposition (CSCMat.mk [] [] [0] (1, 0)) = none ∧
    solve_SLAE_lu (cscFromDense [[0]]) [1] = none := by
  constructor
  · exact (c4_absence_signaling (CSCMat.mk [] [] [0] (1, 0)) []).1 (by decide)
  · have hlu : lu_decomposition (cscFromDense [[0]]) =
        some (⟨[1], [0], [0, 1], (1, 1)⟩, ⟨[], [], [0, 0], (1, 1)⟩) := by
      norm_num [lu_decomposition, luLoop, luStep, uRowUpdate, lColUpdate,
        sumK, matOf, gridOf, getEntry, cscFromDense, CSCMat.toDense,
        CSCMat.seg, segsData, segsIndices, segsIndptr, range_one_eval,
        List.range', ZERO_TOL, List.filterMap_cons, List.filterMap_nil,
        abs_of_pos, abs_neg]
      decide
    refine (c4_absence_signaling (cscFromDense [[0]]) [1]).2.2.2 _ _ hlu
      (by decide) ⟨0, by norm_num, ?_⟩
    norm_num [CSCMat.toDense, CSCMat.seg, gridOf, getEntry, range_one_eval,
      List.range', ZERO_TOL]

theorem c1_delegation_witness :
    spAdd (.csr (csrFromDense [[1]])) (.csr (csrFromDense [[1]])) =
      some (.csr (cooToCsr (cooAddImpl (csrFromDense [[1]]).toCoo
        (cooOf (.csr (csrFromDense [[1]]))).trips))) ∧
    spMatmul (.csr (csrFromDense [[1]])) (.csr (csrFromDense [[1]])) =
      some (.coo (cooMatmulImpl (csrFromDense [[1]]).toCoo
        (cooOf (.csr (csrFromDense [[1]]))))) ∧
    spAdd (.csc (cscFromDense [[1]])) (.csc (cscFromDense [[1]])) =
      some (.csc (cooToCsc (cooAddImpl (cscFromDense [[1]]).toCoo
        (cooOf (.csc (cscFromDense [[1]]))).trips))) ∧
    spMatmul (.csc (cscFromDense [[1]])) (.csc (cscFromDense [[1]])) =
      some (.coo (cooMatmulImpl (cscFromDense [[1]]).toCoo
        (cooOf (.csc (cscFromDense [[1]]))))) ∧
    spAdd (.csr ⟨[], [], [0], (0, 1)⟩) (.coo ⟨[], [], [], (0, 1)⟩) = none ∧
    spAdd (.csc ⟨[], [], [0], (0, 1)⟩) (.coo ⟨[], [], [], (0, 1)⟩) = none :=
  ⟨c1_delegation.1 _ _ rfl rfl, c1_delegation.2.1 _ _ rfl,
    c1_delegation.2.2.1 _ _ rfl rfl, c1_delegation.2.2.2.1 _ _ rfl,
    c1_delegation.2.2.2.2.2.2.1 _ _ rfl rfl (by decide),
    c1_delegation.2.2.2.2.2.2.2 _ _ rfl rfl (by decide)⟩

/-- C2 counterexample: a raw-constructed CSRMatrix storing the single value
`1e-13` (at or below the tolerance) densifies to `[[1e-13]]`, but its double
transpose densifies to `[[0]]` — the conversion layer drops the tiny value. -/
theorem c2_tiny_value_cex :
    SpMat.toDense (spTranspose (spTranspose
        (.csr ⟨[1/10^13], [0], [0, 1], (1, 1)⟩))) ≠
      SpMat.toDense (.csr ⟨[1/10^13], [0], [0, 1], (1, 1)⟩) := by
  norm_num [spTranspose, SpMat.toDense, CSRMat.toCoo, CSRMat.seg,
    CSCMat.toCoo, CSCMat.seg, cooOfTrips, COOMat.trips, COOMat.transpose,
    cooToCsc, cooToCsr, buildSegs, segOut, segDict, dOfList, dAccum, dGetD,
    List.insertionSort, List.orderedInsert, segsData, segsIndices,
    segsIndptr, CSRMat.toDense, CSCMat.toDense, gridOf, getEntry,
    range_one_eval, range_two_eval, ZERO_TOL, List.filterMap_cons,
    List.filterMap_nil, abs_of_pos, abs_neg, List.range', List.zip_cons_cons,
    List.zip_nil_right, List.zip_nil_left]

theorem c2_witness :
    SpMat.toDense (spTranspose (spTranspose
        (.csr ⟨[5], [0], [0, 1], (1, 1)⟩))) =
      SpMat.toDense (.csr ⟨[5], [0], [0, 1], (1, 1)⟩) := by
  have hseg : (CSRMat.mk [5] [0] [0, 1] (1, 1)).seg 0 = [(0, 5)] := by
    norm_num [CSRMat.seg, List.range']
  have hclean : CSRMat.Clean ⟨[5], [0], [0, 1], (1, 1)⟩ := by
    intro i hi
    have hi0 : i = 0 := Nat.lt_one_iff.1 (by simpa using hi)
    subst hi0
    rw [hseg]
    refine ⟨by decide, fun p hp => ?_⟩
    have hp5 : p = (0, 5) := by simpa using hp
    rw [hp5]
    norm_num [ZERO_TOL, abs_of_pos]
  exact c2_transpose_involution.2.1 _ hclean

/-- C3 counterexample: the COOMatrix with triplets `(1e-13, 0, 0)` and
`(1, 0, 0)` breaks the identity — `M.add(M)` keeps the doubled cell sum
`2 + 2e-13`, while `M.scalar_multiply(2)` eliminates the scaled tiny triplet
and densifies to `[[2]]`. -/
theorem c3_tiny_value_cex :
    (spAdd (.coo ⟨[1/10^13, 1], [0, 0], [0, 0], (1, 1)⟩)
      (.coo ⟨[1/10^13, 1], [0, 0], [0, 0], (1, 1)⟩)).map SpMat.toDense ≠
    some (SpMat.toDense
      (spMul (.coo ⟨[1/10^13, 1], [0, 0], [0, 0], (1, 1)⟩) 2)) := by
  norm_num [spAdd, spMul, SpMat.shape, SpMat.toDense, cooAddImpl,
    COOMat.mulImpl, COOMat.eliminateZeros, cooOfTrips, COOMat.trips,
    COOMat.toDense, tripsSum, sortItems, keyLe, List.insertionSort,
    List.orderedInsert, itemsToTrips, dOfList, dAccum, gridOf, getEntry,
    range_one_eval, ZERO_TOL, abs_of_pos, abs_neg, List.zip_cons_cons,
    List.zip_nil_right, List.zip_nil_left, List.filter_cons]

theorem c3_witness :
    (spAdd (.coo ⟨[5], [0], [0], (1, 1)⟩)
        (.coo ⟨[5], [0], [0], (1, 1)⟩)).map SpMat.toDense =
      some (SpMat.toDense (spMul (.coo ⟨[5], [0], [0], (1, 1)⟩) 2)) := by
  refine c3_add_self_eq_double.1 _ (by decide) fun t ht => ?_
  have ht5 : t = (5, 0, 0) := by simpa [COOMat.trips] using ht
  rw [ht5]
  norm_num [ZERO_TOL, abs_of_pos]

theorem c6_witness :
    (((cooToCsr ⟨[1, 2], [0, 0], [0, 0], (2, 2)⟩).seg 0).map (·.1)).Sorted
      (· < ·) ∧
    (((cooToCsr ⟨[1, 2], [0, 0], [0, 0], (2, 2)⟩).seg 0).map (·.1)).Nodup :=
  ⟨((c6_duplicate_accumulation _ ⟨by decide, by decide, by decide⟩
      (by decide)).1 0 (by decide)).1,
    ((c6_duplicate_accumulation _ ⟨by decide, by decide, by decide⟩
      (by decide)).1 0 (by decide)).2.1⟩

theorem c7_witness :
    (cooFromDense [[1]]).toDense = [[1]] ∧
      (csrFromDense [[1]]).toDense = [[1]] ∧
      (cscFromDense [[1]]).toDense = [[1]] := by
  refine c7_dense_roundtrip [[1]] (by decide) fun row hrow x hx => ?_
  have hrow1 : row = [1] := by simpa using hrow
  subst hrow1
  have hx1 : x = 1 := by simpa using hx
  subst hx1
  right
  norm_num [ZERO_TOL, abs_of_pos]

theorem c8_witness :
    ((COOMat.mulImpl ⟨[3], [0], [0], (1, 1)⟩ 0).data = [0] ∧
      (COOMat.mulImpl ⟨[3], [0], [0], (1, 1)⟩ 0).row = [0] ∧
      (COOMat.mulImpl ⟨[3], [0], [0], (1, 1)⟩ 0).col = [0] ∧
      (COOMat.mulImpl ⟨[3], [0], [0], (1, 1)⟩ 0).shape = (1, 1)) ∧
    CSRMat.mulImpl ⟨[3], [0], [0, 1], (1, 1)⟩ 0 = ⟨[], [], [0, 0], (1, 1)⟩ ∧
    CSCMat.mulImpl ⟨[3], [0], [0, 1], (1, 1)⟩ 0 = ⟨[], [], [0, 0], (1, 1)⟩ ∧
    (COOMat.mulImpl ⟨[3], [0], [0], (1, 1)⟩ 2).trips =
      (((COOMat.mk [3] [0] [0] (1, 1)).trips.map fun t =>
        (t.1 * 2, t.2)).filter fun t => ZERO_TOL < |t.1|) ∧
    CSRMat.mulImpl ⟨[3], [0], [0, 1], (1, 1)⟩ 2 =
      ⟨[3].map (· * 2), [0], [0, 1], (1, 1)⟩ ∧
    CSCMat.mulImpl ⟨[3], [0], [0, 1], (1, 1)⟩ 2 =
      ⟨[3].map (· * 2), [0], [0, 1], (1, 1)⟩ :=
  c8_zero_scalar_asymmetry ⟨[3], [0], [0], (1, 1)⟩ ⟨[3], [0], [0, 1], (1, 1)⟩
    ⟨[3], [0], [0, 1], (1, 1)⟩ (by norm_num)

theorem c9_witness :
    getEntry (CSRMat.toDense ⟨[7], [0], [0, 1], (1, 1)⟩) 0 0 =
      (((((CSRMat.mk [7] [0] [0, 1] (1, 1)).seg 0).filter
        fun p => p.1 = 0).map (·.2)).getLast?).getD 0 :=
  c9_overwrite_semantics.1 _
    ⟨by decide, by decide, by decide, by decide, by decide⟩ 0 (by decide) 0
    (by decide)
